import Mathlib

/-!
Verification development for the rss2email feed-state engine.

The definitions below are a shallow embedding of the state logic of
`rss2email/feed.py` (class `Feed`), `rss2email/feeds.py` (class `Feeds`),
`rss2email/command.py` (`run`) and `rss2email/util.py`
(`TimeLimitedFunction`).  External collaborators (the feedparser library,
MIME construction, the network, hashlib, uuid) are abstracted: a parsed
feed is a `Parsed` value, the SHA-1 digest is an abstract parameter
`sha1 : String → String`, and fresh RFC 5322 message identifiers
(`'<{uuid4()}@{node}>'`) are modelled by a counter via `mkMessageId`.
Messages record exactly the headers the theorems talk about
(`Message-ID`, `In-Reply-To`, `Date`).  The user hooks `post_process` and
`digest_post_process` are modelled as unset (their default), which is the
configuration the specification's properties describe.
-/

set_option autoImplicit false

namespace Rss2Email

/-- One remembered guid's state, the value stored in `Feed.seen`.
Mirrors the dict `{'hash': str, 'message_id': str, 'old': bool}` used by
`feed.py`; a missing key is `none`/`false`.  The extra `idKey` field models
the `'id'` key written by `Feeds._upgrade_state_data` for version-1
datafiles (feeds.py line 316), which no other code reads. -/
structure SeenState where
  hash : Option String := none
  message_id : Option String := none
  old : Bool := false
  idKey : Option String := none
deriving DecidableEq, Repr

/-- `Feed.seen`: a Python `dict` from guid to state, modelled as an
insertion-ordered association list (Python 3.7 dicts preserve insertion
order, which `Feed.run`'s clean pruning relies on). -/
abbrev SeenMap := List (String × SeenState)

/-- `seen.get(guid)`. -/
def lookupSeen : SeenMap → String → Option SeenState
  | [], _ => none
  | (k, v) :: rest, g => if k = g then some v else lookupSeen rest g

/-- `guid in seen`. -/
def containsSeen (m : SeenMap) (g : String) : Bool :=
  (lookupSeen m g).isSome

/-- `seen[guid] = v`: Python dict assignment.  An existing key keeps its
insertion position; a new key is appended at the end. -/
def setSeen : SeenMap → String → SeenState → SeenMap
  | [], g, v => [(g, v)]
  | (k, w) :: rest, g, v =>
    if k = g then (g, v) :: rest else (k, w) :: setSeen rest g v

/-- `del seen[guid]`. -/
def eraseSeen : SeenMap → String → SeenMap
  | [], _ => []
  | (k, w) :: rest, g =>
    if k = g then rest else (k, w) :: eraseSeen rest g

/-- Truthiness of an optional string, as Python's `if uid:`/`if version:`
on a value that is either `None` or a `str`. -/
def truthyS : Option String → Bool
  | none => false
  | some s => s ≠ ""

/-- One alternative body carried by a parsed entry (a feedparser content
dict restricted to the fields `feed.py` reads: `type` and `value`). -/
structure ContentPart where
  ctype : String
  value : String
deriving DecidableEq, Repr

/-- A parsed feed entry, restricted to the fields the `Feed` state logic
reads: `id`, `link`, `title`, the content list, `summary_detail`, and the
already-formatted `Date` header value that `Feed._get_entry_date` would
produce for it. -/
structure Entry where
  id : Option String := none
  link : Option String := none
  title : Option String := none
  contents : List ContentPart := []
  summary : Option ContentPart := none
  date : String := ""
deriving DecidableEq, Repr

/-- Per-feed configuration options consulted by the embedded logic, with
the defaults of `config.py`. -/
structure FeedConfig where
  trust_guid : Bool := true
  trust_link : Bool := false
  reply_changes : Bool := false
  digest : Bool := false
  html_mail : Bool := false
deriving DecidableEq, Repr

/-- Embeds `Feed._get_entry_content`: scan the candidate contents
(`entry.content` then `summary_detail`) for the first part whose type is
the best preferred type, preference order depending on `html_mail`; fall
back to the first candidate, then to an empty text/plain part. -/
def get_entry_content (html_mail : Bool) (e : Entry) : ContentPart :=
  let contents := e.contents ++ e.summary.toList
  let types :=
    if html_mail then ["application/xhtml+xml", "text/html", "text/plain"]
    else ["text/plain", "text/html", "application/xhtml+xml"]
  match types.findSome? (fun t => contents.find? (fun c => c.ctype = t)) with
  | some c => c
  | none => contents.headD ⟨"text/plain", ""⟩

/-- Python's `str.strip()`: drop leading and trailing whitespace. -/
def strip (s : String) : String :=
  ⟨((s.data.dropWhile Char.isWhitespace).reverse.dropWhile Char.isWhitespace).reverse⟩

/-- Embeds `Feed._get_entry_hash`: SHA-1 (abstracted as `sha1`) over the
first non-empty choice among stripped best content, link, and title. -/
def get_entry_hash (sha1 : String → String) (html_mail : Bool) (e : Entry) : String :=
  let contentValue := strip (get_entry_content html_mail e).value
  let text :=
    if contentValue ≠ "" then contentValue
    else if truthyS e.link then e.link.getD ""
    else if truthyS e.title then e.title.getD ""
    else ""
  sha1 text

/-- Embeds `Feed._get_uid_for_entry`: the link when `trust_link` is set
and the link is truthy, else the native id when `trust_guid` is set and
the id is truthy, else the entry hash. -/
def get_uid_for_entry (sha1 : String → String) (cfg : FeedConfig) (e : Entry) : String :=
  if cfg.trust_link ∧ truthyS e.link then e.link.getD ""
  else if cfg.trust_guid ∧ truthyS e.id then e.id.getD ""
  else get_entry_hash sha1 cfg.html_mail e

/-- An outbound entry message, restricted to the headers the theorems
mention: `Message-ID`, `In-Reply-To` (`none` when the header is absent)
and `Date`. -/
structure EmailMessage where
  messageId : String
  inReplyTo : Option String := none
  date : String := ""
deriving DecidableEq, Repr

/-- Model of `'<{0}@{1}>'.format(uuid.uuid4(), platform.node())`: the n-th
fresh message identifier of a run. -/
def mkMessageId (n : Nat) : String :=
  "<" ++ toString n ++ "@localhost>"

/-- Embeds `Feed._process_entry` (feed.py lines 488-559).  Returns the
`seen` map after the in-place `del old_state['old']` mutation, together
with `None` (a skipped entry) or the `(guid, new_state, message)` triple;
`freshId` is the `Message-ID` generated for the entry.  The message
records `In-Reply-To = old_state.get('message_id')` for previously seen
entries and no `In-Reply-To` for new ones. -/
def process_entry (sha1 : String → String) (cfg : FeedConfig) (seen : SeenMap)
    (e : Entry) (freshId : String) :
    SeenMap × Option (String × SeenState × EmailMessage) :=
  let guid := get_uid_for_entry sha1 cfg e
  let newHash := get_entry_hash sha1 cfg.html_mail e
  match lookupSeen seen guid with
  | none =>
    let newState : SeenState := { hash := some newHash }
    let message : EmailMessage :=
      { messageId := freshId, inReplyTo := none, date := e.date }
    (seen, some (guid, newState, message))
  | some oldState =>
    let oldCleared : SeenState := { oldState with old := false }
    let seen1 := setSeen seen guid oldCleared
    if cfg.reply_changes then
      if some newHash ≠ oldCleared.hash then
        let newState : SeenState := { oldCleared with hash := some newHash }
        let message : EmailMessage :=
          { messageId := freshId, inReplyTo := oldCleared.message_id, date := e.date }
        (seen1, some (guid, newState, message))
      else (seen1, none)
    else (seen1, none)

/-- The categories of `parsed.bozo_exception` distinguished by
`Feed._check_for_errors` (feed.py lines 438-471). -/
inductive BozoExc where
  | socketTimeout
  | osError
  | socketError
  | zlibError
  | ioOrAttributeError
  | keyboardInterrupt
  | saxParseError
  | characterEncodingOverride
  | nonXMLContentType
  | otherExc
deriving DecidableEq, Repr

/-- A feedparser result, restricted to what `Feed.run` and
`Feed._check_for_errors` consult.  The three header booleans model the
outcome of the corresponding Python tests on the (external) HTTP header
dict: `not http_headers`, `'html' in headers.get('content-type', 'rss')`,
and `headers.get('content-length', '1') == '0'`. -/
structure Parsed where
  status : Nat := 200
  noHeaders : Bool := false
  contentTypeHtml : Bool := false
  contentLengthZero : Bool := false
  version : Option String := some "rss20"
  bozo : Bool := false
  bozoException : Option BozoExc := none
  entries : List Entry := []
  etag : Option String := none
  modified : Option String := none
deriving DecidableEq, Repr

/-- The errors the embedded `Feed.run` can raise.  All except
`keyboardInterrupt` are `rss2email.error.RSS2EmailError` subclasses.
`fetchTimeout` is `TimeoutError` from the time-limited fetch (plain or
wrapping the worker's exception), `invalidUrl` is `InvalidFeedConfig`
for a missing url, `httpStatus` is `HTTPError`, `processing` is
`ProcessingError`, `noToEmail` is `NoToEmailAddress`. -/
inductive RunError where
  | noToEmail
  | fetchTimeout (cause : Option String)
  | invalidUrl
  | httpStatus (status : Nat)
  | processing
  | keyboardInterrupt
deriving DecidableEq, Repr

/-- Whether `command.run`'s `except _error.RSS2EmailError` clause catches
the error. -/
def RunError.isRSS2EmailError : RunError → Bool
  | .keyboardInterrupt => false
  | _ => true

/-- The outcome of `Feed._fetch` (external network I/O): a parsed result,
or one of the errors `_fetch` raises. -/
abbrev FetchResult := Except RunError Parsed

/-- Embeds `Feed._check_for_errors` (feed.py lines 405-477).  Status 301
continues (after updating the configured url, which is not part of the
dynamic state this development tracks); any status outside
`[200, 302, 304, 307]` raises `HTTPError`.  A `KeyboardInterrupt` bozo
exception is re-raised; every other bozo exception, missing headers,
HTML-looking or empty pages, and an unrecognized feed version merely set
the `warned` flag.  Finally `ProcessingError` is raised when nothing
warned, the status is 200 or 302, and there are no entries and no
version. -/
def check_for_errors (p : Parsed) : Option RunError :=
  if p.status = 301 ∨ p.status ∈ [200, 302, 304, 307] then
    if p.bozoException = some BozoExc.keyboardInterrupt then
      some RunError.keyboardInterrupt
    else
      let warnedHeaders := p.noHeaders || (p.contentTypeHtml || p.contentLengthZero)
      let warnedVersion := ! truthyS p.version
      let warnedExc :=
        match p.bozoException with
        | some BozoExc.socketTimeout => true
        | some BozoExc.osError => true
        | some BozoExc.socketError => true
        | some BozoExc.zlibError => true
        | some BozoExc.ioOrAttributeError => true
        | some BozoExc.saxParseError => true
        | some BozoExc.characterEncodingOverride => p.bozo || true
        | some BozoExc.nonXMLContentType => p.bozo || true
        | some BozoExc.otherExc => p.bozo || true
        | some BozoExc.keyboardInterrupt => false
        | none => p.bozo
      let warned := warnedHeaders || warnedVersion || warnedExc
      if ¬ warned ∧ (p.status = 200 ∨ p.status = 302) ∧ p.entries = [] ∧ ¬ truthyS p.version
      then some RunError.processing
      else none
  else some (RunError.httpStatus p.status)

/-- `for guid in self.seen: self.seen[guid]['old'] = True`
(feed.py lines 911-913, the clean marking pass). -/
def markAllOld (m : SeenMap) : SeenMap :=
  m.map (fun p => (p.1, { p.2 with old := true }))

/-- The body of the clean pruning loop (feed.py lines 963-970), walking
keys already reversed: the first `c` old-marked entries lose their mark,
every further old-marked entry is deleted, unmarked entries pass through.
Python's counter may go negative; only its positivity is tested, so a
`Nat` counter is equivalent. -/
def pruneAux : Nat → SeenMap → SeenMap
  | _, [] => []
  | c, (g, st) :: rest =>
    if st.old then
      if 0 < c then (g, { st with old := false }) :: pruneAux (c - 1) rest
      else pruneAux c rest
    else (g, st) :: pruneAux c rest

/-- The clean pruning pass: iterate `reversed(list(self.seen))` with the
counter `old = 3`. -/
def pruneOld (m : SeenMap) : SeenMap :=
  (pruneAux 3 m.reverse).reverse

/-- An outbound message handed to the delivery collaborator: a single
entry message or a digest container. -/
structure DigestMessage where
  messageId : String
  parts : List EmailMessage := []
  date : Option String := none
deriving DecidableEq, Repr

inductive Outbound where
  | single (m : EmailMessage)
  | digestMsg (d : DigestMessage)
deriving DecidableEq, Repr

/-- The non-digest processing loop of `Feed.run` (feed.py lines 932-938)
over the already-reversed entry list: per processed entry, send when
`send` is set and record the sent `Message-ID` in its state, then commit
the state with `self.seen[guid] = state`.  Returns the final seen map,
the sent messages in order, and the next fresh-id counter. -/
def processLoopPlain (sha1 : String → String) (cfg : FeedConfig) (send : Bool) :
    List Entry → SeenMap → Nat → SeenMap × List EmailMessage × Nat
  | [], seen, n => (seen, [], n)
  | e :: rest, seen, n =>
    match process_entry sha1 cfg seen e (mkMessageId n) with
    | (seen1, none) => processLoopPlain sha1 cfg send rest seen1 n
    | (seen1, some (guid, state, message)) =>
      let state1 := if send then { state with message_id := some message.messageId } else state
      let seen2 := setSeen seen1 guid state1
      let rec2 := processLoopPlain sha1 cfg send rest seen2 (n + 1)
      (rec2.1, (if send then message :: rec2.2.1 else rec2.2.1), rec2.2.2)

/-- The digest processing loop of `Feed.run` (feed.py lines 915-921) over
the already-reversed entry list: collect `(guid, state)` pairs and attach
each message to the digest, committing nothing yet.  Returns the final
seen map (mutated only by the old-mark clearing inside
`_process_entry`), the collected pairs, the attached sub-messages in
order, and the next fresh-id counter. -/
def processLoopCollect (sha1 : String → String) (cfg : FeedConfig) :
    List Entry → SeenMap → Nat → SeenMap × List (String × SeenState) × List EmailMessage × Nat
  | [], seen, n => (seen, [], [], n)
  | e :: rest, seen, n =>
    match process_entry sha1 cfg seen e (mkMessageId n) with
    | (seen1, none) => processLoopCollect sha1 cfg rest seen1 n
    | (seen1, some (guid, state, message)) =>
      let rec2 := processLoopCollect sha1 cfg rest seen1 (n + 1)
      (rec2.1, (guid, state) :: rec2.2.1, message :: rec2.2.2.1, rec2.2.2.2)

/-- `for (guid, state) in seen: self.seen[guid] = state`
(feed.py lines 930-931, the digest commit). -/
def commitPairs (m : SeenMap) : List (String × SeenState) → SeenMap
  | [] => m
  | (g, st) :: rest => commitPairs (setSeen m g st) rest

/-- The per-feed dynamic state persisted in the datafile
(`Feed._dynamic_attributes` minus the name). -/
structure FeedState where
  etag : Option String := none
  modified : Option String := none
  seen : SeenMap := []
deriving DecidableEq, Repr

/-- The tail of a successful `Feed.run` (feed.py lines 940-970): adopt
the parsed `etag`/`modified` and, on a clean run with entries, apply the
pruning pass. -/
def runTail (parsed : Parsed) (clean : Bool) (seen' : SeenMap)
    (outs : List Outbound) : FeedState × List Outbound × Option RunError :=
  let stE : FeedState := { etag := parsed.etag, modified := parsed.modified, seen := seen' }
  let stF := if clean ∧ 0 < parsed.entries.length
             then { stE with seen := pruneOld stE.seen } else stE
  (stF, outs, none)

/-- Embeds `Feed.run` (feed.py lines 891-970) with the fetch outcome
supplied as `fetch` and fresh message identifiers drawn from the counter
`n`.  The returned state is the feed's dynamic state at return or at the
point the exception left `run` (Python mutates `self` in place), `outs`
the messages handed to delivery, and the last component the raised
error, if any.  Hooks (`post_process`, `digest_post_process`) are unset,
per the defaults. -/
def Feed.run (sha1 : String → String) (cfg : FeedConfig) (hasTo : Bool)
    (fetch : FetchResult) (send clean : Bool) (n : Nat) (st : FeedState) :
    FeedState × List Outbound × Option RunError :=
  if ¬ hasTo then (st, [], some RunError.noToEmail)
  else
    let st1 := if clean then { st with etag := none, modified := none } else st
    match fetch with
    | Except.error fe => (st1, [], some fe)
    | Except.ok parsed =>
      let st2 := if clean ∧ 0 < parsed.entries.length
                 then { st1 with seen := markAllOld st1.seen } else st1
      match check_for_errors parsed with
      | some err => (st2, [], some err)
      | none =>
        if cfg.digest then
          let containerId := mkMessageId n
          let res := processLoopCollect sha1 cfg parsed.entries.reverse st2.seen (n + 1)
          let seenF := res.1
          let pairs := res.2.1
          let parts := res.2.2.1
          let digest0 : DigestMessage := { messageId := containerId, parts := parts }
          let outs :=
            if pairs.isEmpty then []
            else if send then
              match parts.getLast? with
              | some lastMsg => [Outbound.digestMsg { digest0 with date := some lastMsg.date }]
              | none => []
            else []
          let seen' := if pairs.isEmpty then seenF else commitPairs seenF pairs
          runTail parsed clean seen' outs
        else
          let res := processLoopPlain sha1 cfg send parsed.entries.reverse st2.seen n
          runTail parsed clean res.1 (res.2.1.map Outbound.single)

/-! Model of `util.TimeLimitedFunction`.  The worker thread and the wall
clock are external; what the embedding captures is the object state the
worker's `run` leaves behind and the dispatch `__call__` performs after
`join(timeout)` returns. -/

/-- What the target function does, observed by `TimeLimitedFunction.run`:
it returns a value (Python may return `None`, hence `Option`) or raises
an exception, identified here by a string. -/
abbrev TargetBehavior (α : Type) := Except String (Option α)

/-- The fields of a `TimeLimitedFunction` inspected by `__call__` after
`join(self.timeout)`: `result`, `error` and `isAlive()`. -/
structure TLFState (α : Type) where
  result : Option α := none
  errorInfo : Option String := none
  alive : Bool := true
deriving DecidableEq, Repr

/-- Embeds `TimeLimitedFunction.run` (util.py lines 54-67): store the
target's return value in `self.result`, or the raised exception in
`self.error`. -/
def tlfRun {α : Type} (behavior : TargetBehavior α) : TLFState α :=
  match behavior with
  | Except.ok v => { result := v, errorInfo := none, alive := false }
  | Except.error e => { result := none, errorInfo := some e, alive := false }

/-- The object state `__call__` observes once `join(self.timeout)`
returns: the worker's final state if it finished within the timeout,
otherwise the initial state of a still-running worker. -/
def tlfAfterJoin {α : Type} (behavior : TargetBehavior α) (finishedInTime : Bool) :
    TLFState α :=
  if finishedInTime then tlfRun behavior else {}

/-- The observable outcome of `TimeLimitedFunction.__call__`: a returned
value, a `TimeoutError` raised `from` the worker's exception (so its
`__cause__` is the original exception), or a plain `TimeoutError`. -/
inductive TLFOutcome (α : Type) where
  | ok (v : Option α)
  | wrappedError (cause : String)
  | timedOut
deriving DecidableEq, Repr

/-- Embeds the dispatch of `TimeLimitedFunction.__call__` (util.py lines
69-79) after `join(self.timeout)`: raise the wrapped error if the worker
recorded an exception, else raise a timeout error if the worker is still
alive, else return `self.result`. -/
def tlfCall {α : Type} (behavior : TargetBehavior α) (finishedInTime : Bool) :
    TLFOutcome α :=
  let st := tlfAfterJoin behavior finishedInTime
  match st.errorInfo with
  | some e => TLFOutcome.wrappedError e
  | none => if st.alive then TLFOutcome.timedOut else TLFOutcome.ok st.result

/-- The `daemon=True` argument `TimeLimitedFunction.__init__` (util.py
lines 48-52) passes to `threading.Thread.__init__`: an abandoned worker
is a daemon thread, so it never blocks interpreter exit and is never
forcibly killed by rss2email itself. -/
def tlfDaemon : Bool := true

/-! Model of the datafile schema handling in `feeds.py`. -/

/-- A `seen` value as found in the parsed JSON datafile before
migration: version-1 files store a flat guid -> id string, the current
version stores a structured state object. -/
inductive SeenValue where
  | flat (idv : String)
  | structured (st : SeenState)
deriving DecidableEq, Repr

/-- One feed's persisted state document (`Feed.get_state()`relevant
fields). -/
structure FeedDoc where
  name : String := ""
  etag : Option String := none
  modified : Option String := none
  seen : List (String × SeenValue) := []
deriving DecidableEq, Repr

/-- The parsed datafile: `{'version': int, 'feeds': [...]}`; a missing
version key is `none`. -/
structure DataDoc where
  version : Option Int := none
  feeds : List FeedDoc := []
deriving DecidableEq, Repr

/-- `Feeds.datafile_version`. -/
def datafile_version : Int := 2

/-- Embeds `Feeds._upgrade_state_data` (feeds.py lines 310-320): a
version-1 document has each seen value `v` replaced by `{'id': v}` (the
value is stored under the key `'id'`, modelled by the `idKey` field; no
`'hash'`, `'message_id'` or `'old'` key is produced); any other version
raises `NotImplementedError`, which is fatal.  (A genuine version-1
document carries only flat string values.) -/
def upgrade_state_data (d : DataDoc) : Except String DataDoc :=
  if d.version = some 1 then
    Except.ok
      { d with
        feeds := d.feeds.map (fun f =>
          { f with
            seen := f.seen.map (fun p =>
              match p.2 with
              | SeenValue.flat i => (p.1, SeenValue.structured { idKey := some i })
              | SeenValue.structured st => (p.1, SeenValue.structured st)) }) }
  else
    Except.error "cannot convert data file"

/-- The version dispatch of `Feeds._load_feeds` (feeds.py lines 266-268):
a document already at the current version is used as is, anything else
goes through `_upgrade_state_data`. -/
def load_feed_states (d : DataDoc) : Except String DataDoc :=
  if d.version = some datafile_version then Except.ok d
  else upgrade_state_data d

/-- Embeds `Feeds._save_feed_states` (feeds.py lines 361-370): the saved
document carries the current schema version and each feed's state
unchanged. -/
def save_feed_states (feeds : List FeedDoc) : DataDoc :=
  { version := some datafile_version, feeds := feeds }

/-! Model of the runner loop `command.run` (command.py lines 66-96). -/

instance {ε α : Type} [DecidableEq ε] [DecidableEq α] : DecidableEq (Except ε α) := fun x y =>
  match x, y with
  | Except.ok a, Except.ok b =>
    if h : a = b then isTrue (by rw [h]) else isFalse (fun hh => h (Except.ok.inj hh))
  | Except.error a, Except.error b =>
    if h : a = b then isTrue (by rw [h]) else isFalse (fun hh => h (Except.error.inj hh))
  | Except.ok _, Except.error _ => isFalse (fun hh => Except.noConfusion hh)
  | Except.error _, Except.ok _ => isFalse (fun hh => Except.noConfusion hh)

/-- One feed of the store as the runner loop sees it: its configuration,
its dynamic state, and the outcome its `_fetch` would produce (the
network being external input). -/
structure FeedFixture where
  name : String := ""
  url : String := ""
  active : Bool := true
  hasTo : Bool := true
  cfg : FeedConfig := {}
  fetch : FetchResult := Except.ok {}
  state : FeedState := {}
deriving DecidableEq, Repr

/-- What the runner loop did for one feed: whether a throttle sleep
preceded its fetch, whether it ran at all (`feed.active`), its dynamic
state afterwards, the messages delivered, and the error logged by the
`except RSS2EmailError` clause, if any. -/
structure FeedOutcome where
  slept : Bool := false
  ran : Bool := false
  state : FeedState := {}
  outs : List Outbound := []
  errLogged : Option RunError := none
deriving DecidableEq, Repr

/-- Embeds the loop of `command.run`: for each active feed, compare
`netloc(url)` against `last_server` (sleeping for the configured
interval when equal), run the feed catching `RSS2EmailError`, and update
`last_server`; inactive feeds are skipped and leave `last_server`
untouched.  An uncaught error (`KeyboardInterrupt`) aborts the loop, the
remaining feeds unprocessed (the `finally` clause still saves).  Fresh
message-identifier counters restart per feed. -/
def commandRunAux (netloc : String → String) (sha1 : String → String)
    (send clean : Bool) : List FeedFixture → String → List FeedOutcome
  | [], _ => []
  | f :: rest, lastServer =>
    if f.active then
      let currentServer := netloc f.url
      let slept := lastServer = currentServer
      let res := Feed.run sha1 f.cfg f.hasTo f.fetch send clean 0 f.state
      let outcome : FeedOutcome :=
        { slept := slept, ran := true, state := res.1, outs := res.2.1,
          errLogged := res.2.2 }
      match res.2.2 with
      | some e =>
        if e.isRSS2EmailError then
          outcome :: commandRunAux netloc sha1 send clean rest currentServer
        else [outcome]
      | none => outcome :: commandRunAux netloc sha1 send clean rest currentServer
    else
      { slept := false, ran := false, state := f.state, outs := [], errLogged := none }
        :: commandRunAux netloc sha1 send clean rest lastServer

/-- `command.run` proper: the loop starts with
`last_server = "example.com"` (command.py line 77). -/
def commandRun (netloc : String → String) (sha1 : String → String)
    (send clean : Bool) (feeds : List FeedFixture) : List FeedOutcome :=
  commandRunAux netloc sha1 send clean feeds "example.com"

/-! Basic lemmas about the seen-map operations. -/

theorem lookupSeen_setSeen_self (m : SeenMap) (g : String) (v : SeenState) :
    lookupSeen (setSeen m g v) g = some v := by
  induction m with
  | nil => simp [setSeen, lookupSeen]
  | cons p rest ih =>
    by_cases h : p.1 = g
    · simp [setSeen, h, lookupSeen]
    · simp [setSeen, h, lookupSeen, ih]

theorem lookupSeen_setSeen_ne (m : SeenMap) (g g' : String) (v : SeenState)
    (h : g' ≠ g) : lookupSeen (setSeen m g v) g' = lookupSeen m g' := by
  have h' : ¬ g = g' := fun hh => h hh.symm
  induction m with
  | nil => simp [setSeen, lookupSeen, h']
  | cons p rest ih =>
    obtain ⟨k, w⟩ := p
    by_cases hk : k = g
    · subst hk
      simp [setSeen, lookupSeen, h']
    · simp [setSeen, hk, lookupSeen, ih]

theorem setSeen_lookup_eq (m : SeenMap) (g : String) (v : SeenState)
    (h : lookupSeen m g = some v) : setSeen m g v = m := by
  induction m with
  | nil => simp [lookupSeen] at h
  | cons p rest ih =>
    obtain ⟨k, w⟩ := p
    by_cases hk : k = g
    · subst hk
      simp [lookupSeen] at h
      simp [setSeen, h]
    · simp [lookupSeen, hk] at h
      simp [setSeen, hk, ih h]

theorem lookupSeen_mem {m : SeenMap} {g : String} {v : SeenState}
    (h : lookupSeen m g = some v) : (g, v) ∈ m := by
  induction m with
  | nil => simp [lookupSeen] at h
  | cons p rest ih =>
    obtain ⟨k, w⟩ := p
    by_cases hk : k = g
    · subst hk
      simp [lookupSeen] at h
      subst h
      exact List.mem_cons_self _ _
    · simp [lookupSeen, hk] at h
      exact List.mem_cons_of_mem _ (ih h)

theorem lookupSeen_eq_none_iff (m : SeenMap) (g : String) :
    lookupSeen m g = none ↔ g ∉ m.map Prod.fst := by
  induction m with
  | nil => simp [lookupSeen]
  | cons p rest ih =>
    obtain ⟨k, w⟩ := p
    by_cases hk : k = g
    · simp [lookupSeen, hk]
    · have hk' : ¬ g = k := fun hh => hk hh.symm
      simp [lookupSeen, hk, ih, hk']

theorem containsSeen_setSeen_self (m : SeenMap) (g : String) (v : SeenState) :
    containsSeen (setSeen m g v) g = true := by
  simp [containsSeen, lookupSeen_setSeen_self]

theorem containsSeen_setSeen_of (m : SeenMap) (g g' : String) (v : SeenState)
    (h : containsSeen m g' = true) : containsSeen (setSeen m g v) g' = true := by
  by_cases hg : g' = g
  · subst hg
    exact containsSeen_setSeen_self m g' v
  · simpa [containsSeen, lookupSeen_setSeen_ne m g g' v hg] using h

theorem keys_setSeen_of_contains (m : SeenMap) (g : String) (v : SeenState)
    (h : containsSeen m g = true) :
    (setSeen m g v).map Prod.fst = m.map Prod.fst := by
  induction m with
  | nil => simp [containsSeen, lookupSeen] at h
  | cons p rest ih =>
    by_cases hk : p.1 = g
    · simp [setSeen, hk]
    · simp [containsSeen, lookupSeen, hk] at h
      simp [setSeen, hk, ih h]

theorem old_false_eta (s : SeenState) (h : s.old = false) :
    { s with old := false } = s := by
  cases s
  simp_all

/-- C7: TimeLimitedFunction outcome dispatch: a target that finishes in
time with a value has that value returned; a target that raises in time
has a `TimeoutError` raised whose `__cause__` is the original exception;
a target still running when `join(timeout)` returns has a plain
`TimeoutError` raised, the worker being left behind as a `daemon=True`
thread that is never forcibly killed and never blocks process exit. -/
theorem tlf_outcome_trichotomy {α : Type} (v : Option α) (e : String) :
    tlfCall (Except.ok v) true = TLFOutcome.ok v ∧
    tlfCall (Except.error e : TargetBehavior α) true = TLFOutcome.wrappedError e ∧
    (∀ behavior : TargetBehavior α, tlfCall behavior false = TLFOutcome.timedOut) ∧
    tlfDaemon = true :=
  ⟨rfl, rfl, fun _ => rfl, rfl⟩

/-- C4: evaluating the version-1 migration at the flat document
`{"version": 1, "feeds": [{"name": "f", "seen": {"g": "ID0"}}]}` shows
the migrated entry is `{"id": "ID0"}` — stored under the key `'id'`
(`idKey`), with no `"hash"` key — not the structured
`{"hash", "message_id", "old"}` form the specification describes (the
rest of the code base reads only those keys, never `'id'`); loading a
version-3 document is a fatal error, as claimed. -/
theorem upgrade_v1_writes_id_not_hash :
    load_feed_states
        { version := some 1,
          feeds := [{ name := "f", seen := [("g", SeenValue.flat "ID0")] }] } =
      Except.ok
        { version := some 1,
          feeds := [{ name := "f",
                      seen := [("g", SeenValue.structured
                        { hash := none, message_id := none, old := false,
                          idKey := some "ID0" })] }] } ∧
    save_feed_states
        [{ name := "f",
           seen := [("g", SeenValue.structured { idKey := some "ID0" })] }] =
      { version := some 2,
        feeds := [{ name := "f",
                    seen := [("g", SeenValue.structured { idKey := some "ID0" })] }] } ∧
    load_feed_states { version := some 3, feeds := [] } =
      Except.error "cannot convert data file" := by
  refine ⟨?_, rfl, rfl⟩
  rfl

/-- C1 counterexample: with `reply_changes` enabled and a payload whose
two entries share the guid `"g"` but hash to different values (`"a"` and
`"b"`, `sha1` taken as the identity for concreteness), a first
`Feed.run` emits two messages, and a second `Feed.run` against the very
same payload emits two further messages and changes the `seen` map
again — the claimed idempotence fails.  The guid's stored hash ends at
the newer entry's value, so the older duplicate is "changed" on every
run. -/
theorem dedup_idempotence_counterexample :
    (Feed.run (fun s => s)
        { trust_guid := true, reply_changes := true } true
        (Except.ok { entries :=
          [{ id := some "g", contents := [⟨"text/plain", "b"⟩] },
           { id := some "g", contents := [⟨"text/plain", "a"⟩] }] })
        true false 100
        (Feed.run (fun s => s)
          { trust_guid := true, reply_changes := true } true
          (Except.ok { entries :=
            [{ id := some "g", contents := [⟨"text/plain", "b"⟩] },
             { id := some "g", contents := [⟨"text/plain", "a"⟩] }] })
          true false 0 {}).1).2.1 ≠ [] := by
  decide

/-- C5 counterexample: on a `--clean` run, `Feed.run` clears `etag` and
`modified` before fetching, so a feed whose fetch raises a timeout ends
the run with `etag = None` although its `etag` was `"x"` before — the
error is an `RSS2EmailError` caught by the runner loop, but the feed's
persisted dynamic state is not left unchanged. -/
theorem fetch_error_clean_state_changed :
    (Feed.run (fun s => s) {} true (Except.error (RunError.fetchTimeout none))
        true true 0 { etag := some "x", modified := some "m" } =
      ({ etag := none, modified := none, seen := [] }, [],
        some (RunError.fetchTimeout none))) ∧
    (RunError.fetchTimeout none).isRSS2EmailError = true := by
  exact ⟨rfl, rfl⟩

/-- C8 counterexample: a `send=False` run with `clean=True` and a payload
of one new entry marks the four remembered guids old and prunes the
oldest, `"g1"`, outright — although `"g1"`'s seen entry held
`message_id = "M1"` before the run, there is no stored `message_id` for
it afterwards, so as stated ("the stored message_id after the run equals
its prior value") the claim fails. -/
theorem dry_run_message_id_counterexample :
    lookupSeen
      (Feed.run (fun s => s) { trust_guid := true } true
        (Except.ok { entries := [{ id := some "g5", contents := [⟨"text/plain", "e"⟩] }] })
        false true 0
        { seen :=
            [("g1", { hash := some "a", message_id := some "M1" }),
             ("g2", { hash := some "b" }),
             ("g3", { hash := some "c" }),
             ("g4", { hash := some "d" })] }).1.seen "g1" = none := by
  decide

/-- C9 counterexample: `command.run` initializes `last_server` to
`"example.com"`, so the very first fetched feed of a run is preceded by
a throttle sleep whenever its URL's network host is `example.com` —
contradicting "the first fetched feed of a run is never preceded by a
throttle sleep". -/
theorem first_feed_throttle_counterexample :
    (commandRun
        (fun u => if u = "http://example.com/feed" then "example.com" else "")
        (fun s => s) true false
        [{ url := "http://example.com/feed" }]).map FeedOutcome.slept = [true] := by
  decide

/-- C2: change-triggered reply.  With `reply_changes` enabled, a feed
whose `seen` maps guid `G` to hash `H1` and message id `M1`, fetched
with a payload whose single entry resolves to guid `G` and hash
`H2 ≠ H1`, emits on `Feed.run(send=True)` exactly one message whose
`In-Reply-To` is `M1`; afterwards `seen[G]` holds hash `H2` and the new
message's `Message-ID`.  If instead `H2 = H1`, no message is emitted. -/
theorem change_triggered_reply (sha1 : String → String) (cfg : FeedConfig)
    (hrc : cfg.reply_changes = true) (hdig : cfg.digest = false)
    (parsed : Parsed) (e : Entry) (hent : parsed.entries = [e])
    (hchk : check_for_errors parsed = none)
    (st0 : FeedState) (G H1 H2 M1 : String) (b : Bool) (k : Option String)
    (hg : get_uid_for_entry sha1 cfg e = G)
    (hh : get_entry_hash sha1 cfg.html_mail e = H2)
    (hst : lookupSeen st0.seen G =
      some { hash := some H1, message_id := some M1, old := b, idKey := k })
    (n : Nat) :
    (H2 ≠ H1 →
      (Feed.run sha1 cfg true (Except.ok parsed) true false n st0).2.1 =
        [Outbound.single
          { messageId := mkMessageId n, inReplyTo := some M1, date := e.date }] ∧
      lookupSeen (Feed.run sha1 cfg true (Except.ok parsed) true false n st0).1.seen G =
        some { hash := some H2, message_id := some (mkMessageId n), old := false,
               idKey := k }) ∧
    (H2 = H1 →
      (Feed.run sha1 cfg true (Except.ok parsed) true false n st0).2.1 = []) := by
  constructor
  · intro hne
    simp [Feed.run, hent, hchk, hdig, hrc, runTail, processLoopPlain,
      process_entry, hg, hh, hst, hne, lookupSeen_setSeen_self]
  · intro heq
    subst heq
    simp [Feed.run, hent, hchk, hdig, hrc, runTail, processLoopPlain,
      process_entry, hg, hh, hst]

/-- Witness for `change_triggered_reply`: a concrete feed whose single
entry's hash changed from `"H1"` to `"H2"`. -/
theorem change_triggered_reply_witness :
    (Feed.run (fun s => s) { trust_guid := true, reply_changes := true } true
        (Except.ok { entries :=
          [{ id := some "G", contents := [⟨"text/plain", "H2"⟩], date := "dd" }] })
        true false 7
        { seen := [("G", { hash := some "H1", message_id := some "M1" })] }).2.1 =
      [Outbound.single
        { messageId := mkMessageId 7, inReplyTo := some "M1", date := "dd" }] ∧
    lookupSeen
      (Feed.run (fun s => s) { trust_guid := true, reply_changes := true } true
        (Except.ok { entries :=
          [{ id := some "G", contents := [⟨"text/plain", "H2"⟩], date := "dd" }] })
        true false 7
        { seen := [("G", { hash := some "H1", message_id := some "M1" })] }).1.seen "G" =
      some { hash := some "H2", message_id := some (mkMessageId 7), old := false,
             idKey := none } := by
  have h := change_triggered_reply (fun s => s)
    { trust_guid := true, reply_changes := true } rfl rfl
    { entries := [{ id := some "G", contents := [⟨"text/plain", "H2"⟩], date := "dd" }] }
    { id := some "G", contents := [⟨"text/plain", "H2"⟩], date := "dd" } rfl (by decide)
    { seen := [("G", { hash := some "H1", message_id := some "M1" })] }
    "G" "H1" "H2" "M1" false none (by decide) (by decide) (by decide) 7
  exact h.1 (by decide)

theorem runTail_err (parsed : Parsed) (clean : Bool) (seen' : SeenMap)
    (outs : List Outbound) : (runTail parsed clean seen' outs).2.2 = none := rfl

/-- On a run without `clean`, an error raised by `Feed.run` leaves the
feed exactly as it was: every modelled raise point (missing recipient,
fetch error, response-validation error) precedes any state mutation. -/
theorem run_error_frame (sha1 : String → String) (cfg : FeedConfig) (hasTo : Bool)
    (fetch : FetchResult) (send : Bool) (n : Nat) (st : FeedState) (e : RunError)
    (herr : (Feed.run sha1 cfg hasTo fetch send false n st).2.2 = some e) :
    Feed.run sha1 cfg hasTo fetch send false n st = (st, [], some e) := by
  cases hasTo with
  | false => simp_all [Feed.run]
  | true =>
    cases fetch with
    | error fe => simp_all [Feed.run]
    | ok parsed =>
      cases hc : check_for_errors parsed with
      | some err => simp_all [Feed.run]
      | none => cases hd : cfg.digest <;> simp [Feed.run, hc, hd, runTail] at herr

/-- Unfolding one active step of the runner loop when the feed's error,
if any, is caught. -/
theorem commandRunAux_cons_active (netloc sha1 : String → String) (send clean : Bool)
    (f : FeedFixture) (rest : List FeedFixture) (ls : String) (hact : f.active = true)
    (hcf : ∀ e, (Feed.run sha1 f.cfg f.hasTo f.fetch send clean 0 f.state).2.2 = some e →
      e.isRSS2EmailError = true) :
    commandRunAux netloc sha1 send clean (f :: rest) ls =
      { slept := decide (ls = netloc f.url), ran := true,
        state := (Feed.run sha1 f.cfg f.hasTo f.fetch send clean 0 f.state).1,
        outs := (Feed.run sha1 f.cfg f.hasTo f.fetch send clean 0 f.state).2.1,
        errLogged := (Feed.run sha1 f.cfg f.hasTo f.fetch send clean 0 f.state).2.2 }
        :: commandRunAux netloc sha1 send clean rest (netloc f.url) := by
  cases hres : (Feed.run sha1 f.cfg f.hasTo f.fetch send clean 0 f.state).2.2 with
  | none => simp [commandRunAux, hact, hres]
  | some e => simp [commandRunAux, hact, hres, hcf e hres]

/-- Unfolding one inactive step of the runner loop: the feed is skipped
and `last_server` is not updated. -/
theorem commandRunAux_cons_inactive (netloc sha1 : String → String) (send clean : Bool)
    (f : FeedFixture) (rest : List FeedFixture) (ls : String) (hact : f.active = false) :
    commandRunAux netloc sha1 send clean (f :: rest) ls =
      { slept := false, ran := false, state := f.state, outs := [], errLogged := none }
        :: commandRunAux netloc sha1 send clean rest ls := by
  simp [commandRunAux, hact]

/-- Characterization of the runner loop when every raised error is an
`RSS2EmailError` (so the `except` clause catches it and the loop reaches
every feed): the loop produces one outcome per fixture, active feeds
record exactly what their `Feed.run` produced, inactive feeds are
skipped untouched. -/
theorem commandRunAux_caught (netloc sha1 : String → String) (send clean : Bool)
    (fs : List FeedFixture) (ls : String)
    (hcaught : ∀ f ∈ fs, ∀ e,
      (Feed.run sha1 f.cfg f.hasTo f.fetch send clean 0 f.state).2.2 = some e →
      e.isRSS2EmailError = true) :
    (commandRunAux netloc sha1 send clean fs ls).length = fs.length ∧
    ∀ (i : Nat) (f : FeedFixture) (o : FeedOutcome), fs[i]? = some f →
      (commandRunAux netloc sha1 send clean fs ls)[i]? = some o →
      (f.active = true →
        o.state = (Feed.run sha1 f.cfg f.hasTo f.fetch send clean 0 f.state).1 ∧
        o.outs = (Feed.run sha1 f.cfg f.hasTo f.fetch send clean 0 f.state).2.1 ∧
        o.errLogged = (Feed.run sha1 f.cfg f.hasTo f.fetch send clean 0 f.state).2.2) ∧
      (f.active = false → o.state = f.state ∧ o.outs = [] ∧ o.errLogged = none) := by
  induction fs generalizing ls with
  | nil => simp [commandRunAux]
  | cons f rest ih =>
    have hcf := hcaught f (List.mem_cons_self f rest)
    have hcrest : ∀ f' ∈ rest, ∀ e,
        (Feed.run sha1 f'.cfg f'.hasTo f'.fetch send clean 0 f'.state).2.2 = some e →
        e.isRSS2EmailError = true :=
      fun f' hf' => hcaught f' (List.mem_cons_of_mem _ hf')
    cases hact : f.active with
    | false =>
      have h := ih ls hcrest
      rw [commandRunAux_cons_inactive netloc sha1 send clean f rest ls hact]
      constructor
      · simp [h.1]
      · intro i f' o hf' ho
        cases i with
        | zero =>
          simp only [List.getElem?_cons_zero, Option.some.injEq] at hf' ho
          subst hf'
          subst ho
          refine ⟨fun hcontra => ?_, fun _ => ⟨rfl, rfl, rfl⟩⟩
          rw [hact] at hcontra
          exact absurd hcontra (by simp)
        | succ i =>
          simp only [List.getElem?_cons_succ] at hf' ho
          exact h.2 i f' o hf' ho
    | true =>
      have h := ih (netloc f.url) hcrest
      rw [commandRunAux_cons_active netloc sha1 send clean f rest ls hact hcf]
      constructor
      · simp [h.1]
      · intro i f' o hf' ho
        cases i with
        | zero =>
          simp only [List.getElem?_cons_zero, Option.some.injEq] at hf' ho
          subst hf'
          subst ho
          refine ⟨fun _ => ⟨rfl, rfl, rfl⟩, fun hcontra => ?_⟩
          rw [hact] at hcontra
          exact absurd hcontra (by simp)
        | succ i =>
          simp only [List.getElem?_cons_succ] at hf' ho
          exact h.2 i f' o hf' ho

/-- C5 (amended): per-feed fetch-error atomicity on runs without
`--clean`.  When every error raised by a feed's `Feed.run` is an
`RSS2EmailError` (the modelled fetch and validation errors all are), the
runner loop reaches every feed — one outcome per fixture — and any feed
whose run raised an error has it logged while its persisted dynamic
state (`seen`, `etag`, `modified`) equals its value before the run, with
nothing delivered.  (With `--clean`, `etag`/`modified` are already
cleared before the fetch; see the counterexample.) -/
theorem fetch_error_isolation (netloc sha1 : String → String) (send : Bool)
    (fs : List FeedFixture)
    (hcaught : ∀ f ∈ fs, ∀ e,
      (Feed.run sha1 f.cfg f.hasTo f.fetch send false 0 f.state).2.2 = some e →
      e.isRSS2EmailError = true) :
    (commandRun netloc sha1 send false fs).length = fs.length ∧
    ∀ (i : Nat) (f : FeedFixture) (o : FeedOutcome), fs[i]? = some f →
      (commandRun netloc sha1 send false fs)[i]? = some o →
      o.errLogged.isSome = true → o.state = f.state ∧ o.outs = [] := by
  have h := commandRunAux_caught netloc sha1 send false fs "example.com" hcaught
  refine ⟨h.1, ?_⟩
  intro i f o hf ho herr
  have h2 := h.2 i f o hf ho
  cases hact : f.active with
  | false =>
    exact ⟨(h2.2 hact).1, (h2.2 hact).2.1⟩
  | true =>
    have hrun := h2.1 hact
    cases ho2 : o.errLogged with
    | none => rw [ho2] at herr; simp at herr
    | some e =>
      have hre : (Feed.run sha1 f.cfg f.hasTo f.fetch send false 0 f.state).2.2 = some e := by
        rw [← hrun.2.2, ho2]
      have hframe := run_error_frame sha1 f.cfg f.hasTo f.fetch send 0 f.state e hre
      exact ⟨by rw [hrun.1, hframe], by rw [hrun.2.1, hframe]⟩

/-- Witness for `fetch_error_isolation`: a two-feed store whose second
feed's fetch times out; the loop produces two outcomes and the second
feed keeps its `etag`. -/
theorem fetch_error_isolation_witness :
    (commandRun (fun _ => "h") (fun s => s) true false
        [{ url := "u1" },
         { url := "u2", state := { etag := some "x" },
           fetch := Except.error (RunError.fetchTimeout none) }]).length = 2 ∧
    (commandRun (fun _ => "h") (fun s => s) true false
        [{ url := "u1" },
         { url := "u2", state := { etag := some "x" },
           fetch := Except.error (RunError.fetchTimeout none) }])[1]? =
      some { slept := true, ran := true, state := { etag := some "x" }, outs := [],
             errLogged := some (RunError.fetchTimeout none) } ∧
    ({ etag := some "x" } : FeedState) =
      ({ url := "u2", state := { etag := some "x" },
         fetch := Except.error (RunError.fetchTimeout none) } : FeedFixture).state := by
  have h := fetch_error_isolation (fun _ => "h") (fun s => s) true
    [{ url := "u1" },
     { url := "u2", state := { etag := some "x" },
       fetch := Except.error (RunError.fetchTimeout none) }]
    (by
      intro f hf e he
      simp only [List.mem_cons, List.not_mem_nil, or_false] at hf
      rcases hf with rfl | rfl
      · rw [show (Feed.run (fun s => s) ({ url := "u1" } : FeedFixture).cfg
            ({ url := "u1" } : FeedFixture).hasTo ({ url := "u1" } : FeedFixture).fetch
            true false 0 ({ url := "u1" } : FeedFixture).state).2.2 = none from by decide] at he
        exact Option.noConfusion he
      · rw [show (Feed.run (fun s => s)
            ({ url := "u2", state := { etag := some "x" },
               fetch := Except.error (RunError.fetchTimeout none) } : FeedFixture).cfg
            ({ url := "u2", state := { etag := some "x" },
               fetch := Except.error (RunError.fetchTimeout none) } : FeedFixture).hasTo
            ({ url := "u2", state := { etag := some "x" },
               fetch := Except.error (RunError.fetchTimeout none) } : FeedFixture).fetch
            true false 0
            ({ url := "u2", state := { etag := some "x" },
               fetch := Except.error (RunError.fetchTimeout none) } : FeedFixture).state).2.2 =
            some (RunError.fetchTimeout none) from by decide] at he
        rw [← Option.some.inj he]
        rfl)
  refine ⟨h.1, by decide, ?_⟩
  exact ((h.2 1
    { url := "u2", state := { etag := some "x" },
      fetch := Except.error (RunError.fetchTimeout none) }
    { slept := true, ran := true, state := { etag := some "x" }, outs := [],
      errLogged := some (RunError.fetchTimeout none) }
    (by decide) (by decide) (by decide)).1).symm

theorem getLast?_cons_eq {α : Type} (a : α) (l : List α) :
    (a :: l).getLast? = some (l.getLastD a) := by
  induction l generalizing a with
  | nil => rfl
  | cons b t ih =>
    rw [List.getLast?_cons_cons, ih, List.getLastD_cons]

/-- The network host the loop remembers just before position `i`: the
host of the nearest preceding active fixture, or the initial
`last_server` value `ls` when no preceding fixture is active. -/
def prevHostOr (netloc : String → String) (fs : List FeedFixture) (ls : String)
    (i : Nat) : String :=
  match ((fs.take i).filter (fun f => f.active)).getLast? with
  | some p => netloc p.url
  | none => ls

theorem prevHostOr_succ (netloc : String → String) (f : FeedFixture)
    (rest : List FeedFixture) (ls : String) (i : Nat) :
    prevHostOr netloc (f :: rest) ls (i + 1) =
      prevHostOr netloc rest (if f.active then netloc f.url else ls) i := by
  unfold prevHostOr
  rw [List.take_succ_cons, List.filter_cons]
  cases hact : f.active with
  | false => simp
  | true =>
    simp only [if_true, ite_true, decide_True]
    rw [getLast?_cons_eq]
    cases hL : ((rest.take i).filter (fun f => f.active)).getLast? with
    | none =>
      rw [List.getLast?_eq_none_iff.mp hL]
      simp [List.getLastD]
    | some p =>
      rw [List.getLastD_eq_getLast?, hL]
      simp

/-- Slept-flag characterization of the runner loop: an active fixture's
outcome slept iff the remembered previous host equals its own host. -/
theorem commandRunAux_slept (netloc sha1 : String → String) (send clean : Bool)
    (fs : List FeedFixture) (ls : String)
    (hcaught : ∀ f ∈ fs, ∀ e,
      (Feed.run sha1 f.cfg f.hasTo f.fetch send clean 0 f.state).2.2 = some e →
      e.isRSS2EmailError = true) :
    ∀ (i : Nat) (f : FeedFixture) (o : FeedOutcome), fs[i]? = some f →
      (commandRunAux netloc sha1 send clean fs ls)[i]? = some o →
      f.active = true →
      o.slept = decide (prevHostOr netloc fs ls i = netloc f.url) := by
  induction fs generalizing ls with
  | nil => intro i f o hf ho hact; simp at hf
  | cons f0 rest ih =>
    have hcf := hcaught f0 (List.mem_cons_self f0 rest)
    have hcrest : ∀ f' ∈ rest, ∀ e,
        (Feed.run sha1 f'.cfg f'.hasTo f'.fetch send clean 0 f'.state).2.2 = some e →
        e.isRSS2EmailError = true :=
      fun f' hf' => hcaught f' (List.mem_cons_of_mem _ hf')
    intro i f o hf ho hact
    cases hact0 : f0.active with
    | true =>
      rw [commandRunAux_cons_active netloc sha1 send clean f0 rest ls hact0 hcf] at ho
      cases i with
      | zero =>
        simp only [List.getElem?_cons_zero, Option.some.injEq] at hf ho
        subst hf
        subst ho
        rfl
      | succ i =>
        simp only [List.getElem?_cons_succ] at hf ho
        rw [prevHostOr_succ,
          show (if f0.active = true then netloc f0.url else ls) = netloc f0.url by
            simp [hact0]]
        exact ih (netloc f0.url) hcrest i f o hf ho hact
    | false =>
      rw [commandRunAux_cons_inactive netloc sha1 send clean f0 rest ls hact0] at ho
      cases i with
      | zero =>
        simp only [List.getElem?_cons_zero, Option.some.injEq] at hf
        subst hf
        rw [hact0] at hact
        exact absurd hact (by simp)
      | succ i =>
        simp only [List.getElem?_cons_succ] at hf ho
        rw [prevHostOr_succ,
          show (if f0.active = true then netloc f0.url else ls) = ls by
            simp [hact0]]
        exact ih ls hcrest i f o hf ho hact

/-- C9 (amended): fetch throttle.  For each active feed of the run, a
throttle sleep precedes its fetch iff its URL's network host equals the
host of the nearest preceding active feed — or, when no active feed
precedes it, iff its host equals the sentinel `"example.com"` with which
`command.run` initializes `last_server`.  A first feed is therefore
throttled exactly when its own host is `example.com` (see the
counterexample), and never otherwise. -/
theorem throttle_sleep_iff (netloc sha1 : String → String) (send clean : Bool)
    (fs : List FeedFixture)
    (hcaught : ∀ f ∈ fs, ∀ e,
      (Feed.run sha1 f.cfg f.hasTo f.fetch send clean 0 f.state).2.2 = some e →
      e.isRSS2EmailError = true)
    (i : Nat) (f : FeedFixture) (o : FeedOutcome)
    (hf : fs[i]? = some f)
    (ho : (commandRun netloc sha1 send clean fs)[i]? = some o)
    (hact : f.active = true) :
    o.slept = decide (prevHostOr netloc fs "example.com" i = netloc f.url) :=
  commandRunAux_slept netloc sha1 send clean fs "example.com" hcaught i f o hf ho hact

/-- Witness for `throttle_sleep_iff`: two active feeds on the same host;
the second one sleeps, and indeed its nearest preceding active host is
its own. -/
theorem throttle_sleep_iff_witness :
    ({ slept := true, ran := true, state := { etag := none }, outs := [],
       errLogged := none } : FeedOutcome).slept =
      decide (prevHostOr (fun u => u) [{ url := "h1" }, { url := "h1" }]
        "example.com" 1 = "h1") := by
  have h := throttle_sleep_iff (fun u => u) (fun s => s) true false
    [{ url := "h1" }, { url := "h1" }]
    (by
      intro f hf e he
      simp only [List.mem_cons, List.not_mem_nil, or_false] at hf
      rcases hf with rfl | rfl <;>
        · rw [show (Feed.run (fun s => s) ({ url := "h1" } : FeedFixture).cfg
              ({ url := "h1" } : FeedFixture).hasTo ({ url := "h1" } : FeedFixture).fetch
              true false 0 ({ url := "h1" } : FeedFixture).state).2.2 = none from by decide] at he
          exact Option.noConfusion he)
    1 { url := "h1" }
    { slept := true, ran := true, state := { etag := none }, outs := [], errLogged := none }
    (by decide) (by decide) (by decide)
  exact h

/-! Step lemmas about `process_entry` and the non-digest processing
loop, used for the idempotence and frame theorems. -/

/-- `process_entry` only ever touches its own guid's slot in `seen`. -/
theorem process_entry_lookup_ne (sha1 : String → String) (cfg : FeedConfig)
    (seen : SeenMap) (e : Entry) (fid g : String)
    (hne : g ≠ get_uid_for_entry sha1 cfg e) :
    lookupSeen (process_entry sha1 cfg seen e fid).1 g = lookupSeen seen g := by
  simp only [process_entry]
  rcases hl : lookupSeen seen (get_uid_for_entry sha1 cfg e) with _ | s
  · rfl
  · simp [apply_ite Prod.fst, lookupSeen_setSeen_ne _ _ _ _ hne]

/-- The guid component `process_entry` returns is the entry's uid. -/
theorem process_entry_guid (sha1 : String → String) (cfg : FeedConfig)
    (seen : SeenMap) (e : Entry) (fid : String) (guid : String)
    (state : SeenState) (message : EmailMessage)
    (h : (process_entry sha1 cfg seen e fid).2 = some (guid, state, message)) :
    guid = get_uid_for_entry sha1 cfg e := by
  simp only [process_entry] at h
  rcases hl : lookupSeen seen (get_uid_for_entry sha1 cfg e) with _ | s <;> rw [hl] at h
  · simp at h
    exact h.1.symm
  · simp only [apply_ite Prod.snd] at h
    split_ifs at h <;> simp_all

/-- Processing entries whose guids all differ from `g` leaves `g`'s slot
untouched. -/
theorem processLoopPlain_frame (sha1 : String → String) (cfg : FeedConfig)
    (send : Bool) (g : String) :
    ∀ (es : List Entry) (seen : SeenMap) (n : Nat),
      (∀ e ∈ es, get_uid_for_entry sha1 cfg e ≠ g) →
      lookupSeen (processLoopPlain sha1 cfg send es seen n).1 g = lookupSeen seen g := by
  intro es
  induction es with
  | nil => intro seen n _; rfl
  | cons e rest ih =>
    intro seen n hg
    have hge : get_uid_for_entry sha1 cfg e ≠ g := hg e (List.mem_cons_self e rest)
    have hgrest : ∀ e' ∈ rest, get_uid_for_entry sha1 cfg e' ≠ g :=
      fun e' he' => hg e' (List.mem_cons_of_mem _ he')
    have hbase : lookupSeen (process_entry sha1 cfg seen e (mkMessageId n)).1 g =
        lookupSeen seen g :=
      process_entry_lookup_ne sha1 cfg seen e (mkMessageId n) g (fun hh => hge hh.symm)
    simp only [processLoopPlain]
    rcases hpe : process_entry sha1 cfg seen e (mkMessageId n) with ⟨seen1, _ | ⟨guid, state, message⟩⟩
    · rw [hpe] at hbase
      rw [ih seen1 n hgrest]
      exact hbase
    · have hguid : guid = get_uid_for_entry sha1 cfg e :=
        process_entry_guid sha1 cfg seen e (mkMessageId n) guid state message (by rw [hpe])
      rw [hpe] at hbase
      simp only
      rw [ih _ _ hgrest, lookupSeen_setSeen_ne _ _ _ _ (by rw [hguid]; exact fun hh => hge hh.symm)]
      exact hbase

/-- With `reply_changes` disabled, an unmarked present guid stays
present and unmarked through the processing loop. -/
theorem processLoopPlain_stable (sha1 : String → String) (cfg : FeedConfig)
    (send : Bool) (hrc : cfg.reply_changes = false) (g : String) :
    ∀ (es : List Entry) (seen : SeenMap) (n : Nat) (s : SeenState),
      lookupSeen seen g = some s → s.old = false →
      ∃ s', lookupSeen (processLoopPlain sha1 cfg send es seen n).1 g = some s' ∧
        s'.old = false := by
  intro es
  induction es with
  | nil =>
    intro seen n s hl hold
    exact ⟨s, hl, hold⟩
  | cons e rest ih =>
    intro seen n s hl hold
    by_cases hg : get_uid_for_entry sha1 cfg e = g
    · subst hg
      have hstep : process_entry sha1 cfg seen e (mkMessageId n) =
          (setSeen seen (get_uid_for_entry sha1 cfg e) { s with old := false }, none) := by
        simp only [process_entry]
        rw [hl]
        simp [hrc]
      simp only [processLoopPlain]
      rw [hstep]
      exact ih _ n { s with old := false } (lookupSeen_setSeen_self _ _ _) rfl
    · have hbase : lookupSeen (process_entry sha1 cfg seen e (mkMessageId n)).1 g =
          lookupSeen seen g :=
        process_entry_lookup_ne sha1 cfg seen e (mkMessageId n) g (fun hh => hg hh.symm)
      simp only [processLoopPlain]
      rcases hpe : process_entry sha1 cfg seen e (mkMessageId n) with ⟨seen1, _ | ⟨guid, state, message⟩⟩
      · rw [hpe] at hbase
        exact ih _ n s (by rw [hbase]; exact hl) hold
      · have hguid : guid = get_uid_for_entry sha1 cfg e :=
          process_entry_guid sha1 cfg seen e (mkMessageId n) guid state message (by rw [hpe])
        rw [hpe] at hbase
        simp only
        refine ih _ _ s ?_ hold
        rw [lookupSeen_setSeen_ne _ _ _ _ (by rw [hguid]; exact fun hh => hg hh.symm), hbase]
        exact hl

/-- After the non-digest processing loop, every processed entry's guid is
present with a cleared `old` mark; with `reply_changes` enabled (and
pairwise-distinct payload guids) its stored hash moreover equals the
entry's hash. -/
theorem processLoopPlain_post (sha1 : String → String) (cfg : FeedConfig)
    (send : Bool) :
    ∀ (es : List Entry) (seen : SeenMap) (n : Nat),
      (cfg.reply_changes = true → (es.map (get_uid_for_entry sha1 cfg)).Nodup) →
      ∀ e ∈ es, ∃ s,
        lookupSeen (processLoopPlain sha1 cfg send es seen n).1
          (get_uid_for_entry sha1 cfg e) = some s ∧
        s.old = false ∧
        (cfg.reply_changes = true → s.hash = some (get_entry_hash sha1 cfg.html_mail e)) := by
  intro es
  induction es with
  | nil => intro seen n _ e he; simp at he
  | cons e0 rest ih =>
    intro seen n hnd e he
    have hndrest : cfg.reply_changes = true → (rest.map (get_uid_for_entry sha1 cfg)).Nodup :=
      fun hrc => (List.nodup_cons.mp (hnd hrc)).2
    rcases List.mem_cons.mp he with rfl | hmem
    · -- the head entry: establish its slot after its own step, then push it through
      have hstep : ∃ seen', (processLoopPlain sha1 cfg send (e :: rest) seen n).1 =
          (processLoopPlain sha1 cfg send rest seen'
            ((process_entry sha1 cfg seen e (mkMessageId n)).2.elim n (fun _ => n + 1))).1 ∧
          ∃ s, lookupSeen seen' (get_uid_for_entry sha1 cfg e) = some s ∧ s.old = false ∧
            (cfg.reply_changes = true → s.hash = some (get_entry_hash sha1 cfg.html_mail e)) := by
        simp only [processLoopPlain, process_entry]
        rcases hl : lookupSeen seen (get_uid_for_entry sha1 cfg e) with _ | s0
        · refine ⟨setSeen seen (get_uid_for_entry sha1 cfg e)
            (if send then { hash := some (get_entry_hash sha1 cfg.html_mail e),
                            message_id := some (mkMessageId n) }
             else { hash := some (get_entry_hash sha1 cfg.html_mail e) }), ?_, ?_⟩
          · cases send <;> simp [hl]
          · cases send <;>
              exact ⟨_, lookupSeen_setSeen_self _ _ _, rfl, fun _ => rfl⟩
        · cases hrc : cfg.reply_changes with
          | false =>
            refine ⟨setSeen seen (get_uid_for_entry sha1 cfg e) { s0 with old := false },
              ?_, ?_⟩
            · simp [hl, hrc]
            · exact ⟨_, lookupSeen_setSeen_self _ _ _, rfl, fun hc => Bool.noConfusion hc⟩
          | true =>
            by_cases hh : some (get_entry_hash sha1 cfg.html_mail e) = s0.hash
            · refine ⟨setSeen seen (get_uid_for_entry sha1 cfg e) { s0 with old := false },
                ?_, ?_⟩
              · simp [hl, hrc, hh]
              · exact ⟨_, lookupSeen_setSeen_self _ _ _, rfl, fun _ => hh.symm⟩
            · refine ⟨setSeen
                (setSeen seen (get_uid_for_entry sha1 cfg e) { s0 with old := false })
                (get_uid_for_entry sha1 cfg e)
                (if send then
                  { hash := some (get_entry_hash sha1 cfg.html_mail e),
                    message_id := some (mkMessageId n), old := false, idKey := s0.idKey }
                 else
                  { hash := some (get_entry_hash sha1 cfg.html_mail e),
                    message_id := s0.message_id, old := false, idKey := s0.idKey }),
                ?_, ?_⟩
              · cases send <;> simp [hl, hrc, hh]
              · cases send <;>
                  exact ⟨_, lookupSeen_setSeen_self _ _ _, rfl, fun _ => rfl⟩
      obtain ⟨seen', hrw, s', hl', hold', hhash'⟩ := hstep
      rw [hrw]
      cases hrc : cfg.reply_changes with
      | false =>
        obtain ⟨s'', hl'', hold''⟩ :=
          processLoopPlain_stable sha1 cfg send hrc (get_uid_for_entry sha1 cfg e)
            rest seen' _ s' hl' hold'
        exact ⟨s'', hl'', hold'', fun hc => Bool.noConfusion hc⟩
      | true =>
        have hne : ∀ e' ∈ rest,
            get_uid_for_entry sha1 cfg e' ≠ get_uid_for_entry sha1 cfg e := by
          intro e' he' hcontra
          have h1 := (List.nodup_cons.mp (hnd hrc)).1
          exact h1 (by
            rw [← hcontra]
            exact List.mem_map_of_mem (get_uid_for_entry sha1 cfg) he')
        rw [processLoopPlain_frame sha1 cfg send _ rest seen' _ hne]
        exact ⟨s', hl', hold', fun _ => hhash' hrc⟩
    · -- an entry of the tail: reduce one step and use the induction hypothesis
      simp only [processLoopPlain]
      rcases hpe : process_entry sha1 cfg seen e0 (mkMessageId n) with ⟨seen1, _ | ⟨guid, state, message⟩⟩
      · exact ih seen1 n hndrest e hmem
      · exact ih _ _ hndrest e hmem

/-- The processing loop is a no-op on a `seen` map in which every
payload entry is already recorded unmarked (with its current hash, when
`reply_changes` is enabled): nothing is emitted and the map is returned
unchanged. -/
theorem processLoopPlain_noop (sha1 : String → String) (cfg : FeedConfig)
    (send : Bool) :
    ∀ (es : List Entry) (seen : SeenMap) (n : Nat),
      (∀ e ∈ es, ∃ s, lookupSeen seen (get_uid_for_entry sha1 cfg e) = some s ∧
        s.old = false ∧
        (cfg.reply_changes = true → s.hash = some (get_entry_hash sha1 cfg.html_mail e))) →
      processLoopPlain sha1 cfg send es seen n = (seen, [], n) := by
  intro es
  induction es with
  | nil => intro seen n _; rfl
  | cons e rest ih =>
    intro seen n h
    obtain ⟨s, hls, hold, hhash⟩ := h e (List.mem_cons_self e rest)
    have heta : { s with old := false } = s := old_false_eta s hold
    have hstep : process_entry sha1 cfg seen e (mkMessageId n) = (seen, none) := by
      simp only [process_entry]
      rw [hls]
      cases hrc : cfg.reply_changes with
      | false => simp [heta, setSeen_lookup_eq seen _ s hls]
      | true => simp [heta, setSeen_lookup_eq seen _ s hls, (hhash hrc).symm]
    simp only [processLoopPlain]
    rw [hstep]
    exact ih seen n (fun e' he' => h e' (List.mem_cons_of_mem _ he'))

/-- C1 (amended): dedup idempotence.  For a feed with digest disabled and
no `--clean`, if `reply_changes` is disabled or the payload's entries
resolve to pairwise-distinct guids, then running `Feed.run` a second
time against the payload just processed emits zero messages and leaves
the `seen` map (of whichever run) unchanged; in particular, with
`reply_changes` disabled, `_process_entry` on an already-seen guid
returns `None` regardless of hash changes.  (Without the distinctness
proviso the claim fails: see the counterexample, where two entries
share a guid but hash differently and are re-delivered on every run.) -/
theorem dedup_idempotence_amended (sha1 : String → String) (cfg : FeedConfig)
    (hdig : cfg.digest = false) (parsed : Parsed)
    (hchk : check_for_errors parsed = none)
    (hok : cfg.reply_changes = false ∨
      (parsed.entries.map (get_uid_for_entry sha1 cfg)).Nodup)
    (st0 : FeedState) (send1 send2 : Bool) (n1 n2 : Nat) :
    (Feed.run sha1 cfg true (Except.ok parsed) send2 false n2
        (Feed.run sha1 cfg true (Except.ok parsed) send1 false n1 st0).1).2.1 = [] ∧
    (Feed.run sha1 cfg true (Except.ok parsed) send2 false n2
        (Feed.run sha1 cfg true (Except.ok parsed) send1 false n1 st0).1).1.seen =
      (Feed.run sha1 cfg true (Except.ok parsed) send1 false n1 st0).1.seen := by
  have hshape : ∀ (st : FeedState) (sd : Bool) (n : Nat),
      Feed.run sha1 cfg true (Except.ok parsed) sd false n st =
        ({ etag := parsed.etag, modified := parsed.modified,
           seen := (processLoopPlain sha1 cfg sd parsed.entries.reverse st.seen n).1 },
         (processLoopPlain sha1 cfg sd parsed.entries.reverse st.seen n).2.1.map
           Outbound.single,
         none) := by
    intro st sd n
    simp [Feed.run, hchk, hdig, runTail]
  have hndrev : cfg.reply_changes = true →
      (parsed.entries.reverse.map (get_uid_for_entry sha1 cfg)).Nodup := by
    intro hrc
    rcases hok with h | h
    · rw [hrc] at h; cases h
    · rw [List.map_reverse]
      exact List.nodup_reverse.mpr h
  have hpost := processLoopPlain_post sha1 cfg send1 parsed.entries.reverse
    st0.seen n1 hndrev
  have hnoop := processLoopPlain_noop sha1 cfg send2 parsed.entries.reverse
    (processLoopPlain sha1 cfg send1 parsed.entries.reverse st0.seen n1).1 n2
    (fun e he => hpost e he)
  rw [hshape st0 send1 n1, hshape _ send2 n2]
  simp [hnoop]

/-- Witness for `dedup_idempotence_amended`: two distinct-guid entries,
`reply_changes` enabled; the second run over the same payload emits
nothing and keeps `seen`. -/
theorem dedup_idempotence_amended_witness :
    (Feed.run (fun s => s) { trust_guid := true, reply_changes := true } true
        (Except.ok { entries :=
          [{ id := some "b", contents := [⟨"text/plain", "B"⟩] },
           { id := some "a", contents := [⟨"text/plain", "A"⟩] }] })
        true false 100
        (Feed.run (fun s => s) { trust_guid := true, reply_changes := true } true
          (Except.ok { entries :=
            [{ id := some "b", contents := [⟨"text/plain", "B"⟩] },
             { id := some "a", contents := [⟨"text/plain", "A"⟩] }] })
          true false 0 {}).1).2.1 = [] ∧
    (Feed.run (fun s => s) { trust_guid := true, reply_changes := true } true
        (Except.ok { entries :=
          [{ id := some "b", contents := [⟨"text/plain", "B"⟩] },
           { id := some "a", contents := [⟨"text/plain", "A"⟩] }] })
        true false 100
        (Feed.run (fun s => s) { trust_guid := true, reply_changes := true } true
          (Except.ok { entries :=
            [{ id := some "b", contents := [⟨"text/plain", "B"⟩] },
             { id := some "a", contents := [⟨"text/plain", "A"⟩] }] })
          true false 0 {}).1).1.seen =
      (Feed.run (fun s => s) { trust_guid := true, reply_changes := true } true
        (Except.ok { entries :=
          [{ id := some "b", contents := [⟨"text/plain", "B"⟩] },
           { id := some "a", contents := [⟨"text/plain", "A"⟩] }] })
        true false 0 {}).1.seen :=
  dedup_idempotence_amended (fun s => s) { trust_guid := true, reply_changes := true }
    rfl
    { entries :=
      [{ id := some "b", contents := [⟨"text/plain", "B"⟩] },
       { id := some "a", contents := [⟨"text/plain", "A"⟩] }] }
    (by decide) (Or.inr (by decide)) {} true true 0 100

/-! Lemmas about keys, marking and pruning, used for the dry-run frame
and clean-pruning theorems. -/

theorem lookupSeen_markAllOld (m : SeenMap) (g : String) :
    lookupSeen (markAllOld m) g =
      (lookupSeen m g).map (fun s => { s with old := true }) := by
  induction m with
  | nil => rfl
  | cons p rest ih =>
    by_cases hk : p.1 = g
    · simp [markAllOld, lookupSeen, hk]
    · simpa [markAllOld, lookupSeen, hk] using ih

theorem keys_markAllOld (m : SeenMap) :
    (markAllOld m).map Prod.fst = m.map Prod.fst := by
  induction m with
  | nil => rfl
  | cons p rest ih => simp [markAllOld, ih] at ih ⊢ <;> exact ih

theorem keys_setSeen_of_not_contains (m : SeenMap) (g : String) (v : SeenState)
    (h : containsSeen m g = false) :
    (setSeen m g v).map Prod.fst = m.map Prod.fst ++ [g] := by
  induction m with
  | nil => rfl
  | cons p rest ih =>
    by_cases hk : p.1 = g
    · simp [containsSeen, lookupSeen, hk] at h
    · simp only [containsSeen, lookupSeen, hk, if_false, ite_false] at h
      simp [setSeen, hk, ih h]

theorem nodup_setSeen (m : SeenMap) (g : String) (v : SeenState)
    (h : (m.map Prod.fst).Nodup) : ((setSeen m g v).map Prod.fst).Nodup := by
  cases hc : containsSeen m g with
  | true => rw [keys_setSeen_of_contains m g v hc]; exact h
  | false =>
    rw [keys_setSeen_of_not_contains m g v hc]
    have hg : g ∉ m.map Prod.fst := by
      rw [← lookupSeen_eq_none_iff]
      simpa [containsSeen, Option.isSome_iff_exists] using hc
    simp [List.nodup_append, h, hg]

theorem lookupSeen_of_mem_nodup {m : SeenMap} {g : String} {v : SeenState}
    (hnd : (m.map Prod.fst).Nodup) (h : (g, v) ∈ m) :
    lookupSeen m g = some v := by
  induction m with
  | nil => simp at h
  | cons p rest ih =>
    rcases List.mem_cons.mp h with rfl | hmem
    · simp [lookupSeen]
    · have hk : p.1 ≠ g := by
        intro hk
        have : g ∈ rest.map Prod.fst :=
          List.mem_map_of_mem Prod.fst hmem
        exact (List.nodup_cons.mp hnd).1 (hk ▸ this)
      simp [lookupSeen, hk]
      exact ih (List.nodup_cons.mp hnd).2 hmem

/-- The seen map returned by `process_entry` is either untouched or has
exactly the entry's guid old-cleared. -/
theorem process_entry_seen_cases (sha1 : String → String) (cfg : FeedConfig)
    (seen : SeenMap) (e : Entry) (fid : String) :
    (process_entry sha1 cfg seen e fid).1 = seen ∨
    ∃ s0, lookupSeen seen (get_uid_for_entry sha1 cfg e) = some s0 ∧
      (process_entry sha1 cfg seen e fid).1 =
        setSeen seen (get_uid_for_entry sha1 cfg e) { s0 with old := false } := by
  simp only [process_entry]
  rcases hl : lookupSeen seen (get_uid_for_entry sha1 cfg e) with _ | s0
  · exact Or.inl rfl
  · refine Or.inr ⟨s0, rfl, ?_⟩
    simp [apply_ite Prod.fst]

/-- The state `process_entry` hands back for commitment carries the
previously stored `message_id` (or none for a new guid). -/
theorem process_entry_state_message_id (sha1 : String → String) (cfg : FeedConfig)
    (seen : SeenMap) (e : Entry) (fid : String) (guid : String)
    (state : SeenState) (message : EmailMessage)
    (h : (process_entry sha1 cfg seen e fid).2 = some (guid, state, message)) :
    (lookupSeen seen (get_uid_for_entry sha1 cfg e) = none ∧ state.message_id = none) ∨
    (∃ s0, lookupSeen seen (get_uid_for_entry sha1 cfg e) = some s0 ∧
      state.message_id = s0.message_id) := by
  simp only [process_entry] at h
  rcases hl : lookupSeen seen (get_uid_for_entry sha1 cfg e) with _ | s0 <;> rw [hl] at h
  · simp at h
    exact Or.inl ⟨rfl, by rw [← h.2.1]⟩
  · simp only [apply_ite Prod.snd] at h
    split_ifs at h <;> simp at h
    exact Or.inr ⟨s0, rfl, by rw [← h.2.1]⟩

/-- Every entry of a pruned map comes from an entry of the original map
with the same key, at most with its old mark cleared. -/
theorem pruneAux_mem (c : Nat) (l : SeenMap) :
    ∀ p ∈ pruneAux c l, ∃ q ∈ l, q.1 = p.1 ∧
      (p.2 = q.2 ∨ p.2 = { q.2 with old := false }) := by
  induction l generalizing c with
  | nil => intro p hp; simp [pruneAux] at hp
  | cons q0 rest ih =>
    intro p hp
    obtain ⟨g0, st0⟩ := q0
    simp only [pruneAux] at hp
    split_ifs at hp with h1 h2
    · rcases List.mem_cons.mp hp with rfl | hmem
      · exact ⟨(g0, st0), List.mem_cons_self _ _, rfl, Or.inr rfl⟩
      · obtain ⟨q, hq, hk, hv⟩ := ih (c - 1) p hmem
        exact ⟨q, List.mem_cons_of_mem _ hq, hk, hv⟩
    · obtain ⟨q, hq, hk, hv⟩ := ih c p hp
      exact ⟨q, List.mem_cons_of_mem _ hq, hk, hv⟩
    · rcases List.mem_cons.mp hp with rfl | hmem
      · exact ⟨(g0, st0), List.mem_cons_self _ _, rfl, Or.inl rfl⟩
      · obtain ⟨q, hq, hk, hv⟩ := ih c p hmem
        exact ⟨q, List.mem_cons_of_mem _ hq, hk, hv⟩

/-- Looking up a surviving guid after pruning finds its pre-prune state,
at most with the old mark cleared (keys assumed distinct, as for a
Python dict). -/
theorem pruneOld_lookup (m : SeenMap) (hnd : (m.map Prod.fst).Nodup)
    (g : String) (s : SeenState)
    (h : lookupSeen (pruneOld m) g = some s) :
    ∃ s0, lookupSeen m g = some s0 ∧ (s = s0 ∨ s = { s0 with old := false }) := by
  have hmem : (g, s) ∈ pruneOld m := lookupSeen_mem h
  have hmem' : (g, s) ∈ pruneAux 3 m.reverse := by
    simp only [pruneOld] at hmem
    exact List.mem_reverse.mp hmem
  obtain ⟨q, hq, hk, hv⟩ := pruneAux_mem 3 m.reverse (g, s) hmem'
  have hqm : q ∈ m := (List.mem_reverse).mp hq
  have hql : lookupSeen m g = some q.2 := by
    have : (g, q.2) ∈ m := by
      have hq2 : q = (g, q.2) := by
        obtain ⟨qk, qv⟩ := q
        simp at hk
        simp [hk]
      rw [← hq2]
      exact hqm
    exact lookupSeen_of_mem_nodup hnd this
  exact ⟨q.2, hql, by simpa using hv⟩

/-- The processing loop never loses a guid. -/
theorem processLoopPlain_contains (sha1 : String → String) (cfg : FeedConfig)
    (send : Bool) :
    ∀ (es : List Entry) (seen : SeenMap) (n : Nat) (g : String),
      containsSeen seen g = true →
      containsSeen (processLoopPlain sha1 cfg send es seen n).1 g = true := by
  intro es
  induction es with
  | nil => intro seen n g h; exact h
  | cons e rest ih =>
    intro seen n g h
    have hcase := process_entry_seen_cases sha1 cfg seen e (mkMessageId n)
    simp only [processLoopPlain]
    rcases hpe : process_entry sha1 cfg seen e (mkMessageId n) with ⟨seen1, res⟩
    rw [hpe] at hcase
    have h1 : containsSeen seen1 g = true := by
      rcases hcase with rfl | ⟨s0, hl0, rfl⟩
      · exact h
      · exact containsSeen_setSeen_of _ _ _ _ h
    cases res with
    | none => exact ih seen1 n g h1
    | some t =>
      obtain ⟨guid, state, message⟩ := t
      exact ih _ _ g (containsSeen_setSeen_of _ _ _ _ h1)

/-- The processing loop keeps the seen keys duplicate-free. -/
theorem processLoopPlain_nodup (sha1 : String → String) (cfg : FeedConfig)
    (send : Bool) :
    ∀ (es : List Entry) (seen : SeenMap) (n : Nat),
      (seen.map Prod.fst).Nodup →
      ((processLoopPlain sha1 cfg send es seen n).1.map Prod.fst).Nodup := by
  intro es
  induction es with
  | nil => intro seen n h; exact h
  | cons e rest ih =>
    intro seen n h
    have hcase := process_entry_seen_cases sha1 cfg seen e (mkMessageId n)
    simp only [processLoopPlain]
    rcases hpe : process_entry sha1 cfg seen e (mkMessageId n) with ⟨seen1, res⟩
    rw [hpe] at hcase
    have h1 : (seen1.map Prod.fst).Nodup := by
      rcases hcase with rfl | ⟨s0, hl0, rfl⟩
      · exact h
      · exact nodup_setSeen _ _ _ h
    cases res with
    | none => exact ih seen1 n h1
    | some t =>
      obtain ⟨guid, state, message⟩ := t
      exact ih _ _ (nodup_setSeen _ _ _ h1)

/-- With delivery suppressed, the processing loop never changes any
stored `message_id`: every surviving guid's `message_id` equals the one
in the reference map `base` it started from. -/
theorem processLoopPlain_message_id (sha1 : String → String) (cfg : FeedConfig) :
    ∀ (es : List Entry) (seen base : SeenMap) (n : Nat),
      (∀ g s0 s, lookupSeen base g = some s0 → lookupSeen seen g = some s →
        s.message_id = s0.message_id) →
      (∀ g, containsSeen base g = true → containsSeen seen g = true) →
      ∀ g s0 s, lookupSeen base g = some s0 →
        lookupSeen (processLoopPlain sha1 cfg false es seen n).1 g = some s →
        s.message_id = s0.message_id := by
  intro es
  induction es with
  | nil => intro seen base n h1 _; exact h1
  | cons e rest ih =>
    intro seen base n h1 h2
    have hcase := process_entry_seen_cases sha1 cfg seen e (mkMessageId n)
    simp only [processLoopPlain, Bool.false_eq_true, if_false, ite_false]
    rcases hpe : process_entry sha1 cfg seen e (mkMessageId n) with ⟨seen1, res⟩
    rw [hpe] at hcase
    have h1' : ∀ g s0 s, lookupSeen base g = some s0 → lookupSeen seen1 g = some s →
        s.message_id = s0.message_id := by
      rcases hcase with rfl | ⟨s0', hl0, rfl⟩
      · exact h1
      · intro g s0 s hb hl
        by_cases hg : g = get_uid_for_entry sha1 cfg e
        · subst hg
          rw [lookupSeen_setSeen_self] at hl
          cases hl
          exact h1 _ s0 s0' hb hl0
        · rw [lookupSeen_setSeen_ne _ _ _ _ hg] at hl
          exact h1 g s0 s hb hl
    have h2' : ∀ g, containsSeen base g = true → containsSeen seen1 g = true := by
      rcases hcase with rfl | ⟨s0', hl0, rfl⟩
      · exact h2
      · intro g hb
        exact containsSeen_setSeen_of _ _ _ _ (h2 g hb)
    cases res with
    | none => exact ih seen1 base n h1' h2'
    | some t =>
      obtain ⟨guid, state, message⟩ := t
      have hguid : guid = get_uid_for_entry sha1 cfg e :=
        process_entry_guid sha1 cfg seen e (mkMessageId n) guid state message (by rw [hpe])
      have hmid := process_entry_state_message_id sha1 cfg seen e (mkMessageId n)
        guid state message (by rw [hpe])
      refine ih _ base (n + 1) ?_ ?_
      · intro g s0 s hb hl
        by_cases hg : g = guid
        · rw [hg, lookupSeen_setSeen_self] at hl
          cases hl
          rcases hmid with ⟨hnone, hmn⟩ | ⟨s0', hl0', hmi⟩
          · exfalso
            have hc : containsSeen base g = true := by
              simp [containsSeen, hb]
            have h2g := h2 g hc
            rw [hg, hguid] at h2g
            simp [containsSeen, hnone] at h2g
          · rw [hmi]
            have hb' : lookupSeen base (get_uid_for_entry sha1 cfg e) = some s0 := by
              rw [← hguid, ← hg]
              exact hb
            exact h1 _ s0 s0' hb' hl0'
        · rw [lookupSeen_setSeen_ne _ _ _ _ hg] at hl
          exact h1' g s0 s hb hl
      · intro g hb
        exact containsSeen_setSeen_of _ _ _ _ (h2' g hb)

/-- The seen map a successful non-digest `Feed.run` ends with: the
processing-loop result, marked beforehand and pruned afterwards when
cleaning with a non-empty payload. -/
theorem run_seen_shape (sha1 : String → String) (cfg : FeedConfig)
    (hdig : cfg.digest = false) (parsed : Parsed)
    (hchk : check_for_errors parsed = none) (send clean : Bool) (n : Nat)
    (st : FeedState) :
    (Feed.run sha1 cfg true (Except.ok parsed) send clean n st).1.seen =
      (if clean ∧ 0 < parsed.entries.length then
        pruneOld
          (processLoopPlain sha1 cfg send parsed.entries.reverse
            (markAllOld st.seen) n).1
      else (processLoopPlain sha1 cfg send parsed.entries.reverse st.seen n).1) := by
  by_cases hcl : clean ∧ 0 < parsed.entries.length
  · have hclean : clean = true := by
      rcases hcl with ⟨h, _⟩
      cases clean
      · cases h
      · rfl
    simp [Feed.run, hchk, hdig, runTail, hcl, hclean]
  · by_cases hclean : clean = true
    · have hlen : ¬ 0 < parsed.entries.length := fun h => hcl ⟨hclean, h⟩
      simp [Feed.run, hchk, hdig, runTail, hclean, hlen]
    · have hcf : clean = false := by cases clean <;> simp_all
      simp [Feed.run, hchk, hdig, runTail, hcf]

/-- C8 (amended): dry-run frame.  A non-digest `Feed.run` with
`send=False` never changes any stored `message_id`: every guid still
present in `seen` after the run carries exactly the `message_id` it had
before (new guids carry none), and when `clean` is not requested every
previously present guid is still present.  (A guid can disappear
entirely only through `--clean` pruning — see the counterexample — which
is independent of `send`.) -/
theorem dry_run_message_id_frame (sha1 : String → String) (cfg : FeedConfig)
    (hdig : cfg.digest = false) (hasTo : Bool) (fetch : FetchResult)
    (clean : Bool) (n : Nat) (st0 : FeedState)
    (hnd : (st0.seen.map Prod.fst).Nodup) :
    (∀ g s0 s1, lookupSeen st0.seen g = some s0 →
      lookupSeen (Feed.run sha1 cfg hasTo fetch false clean n st0).1.seen g = some s1 →
      s1.message_id = s0.message_id) ∧
    (clean = false → ∀ g, containsSeen st0.seen g = true →
      containsSeen (Feed.run sha1 cfg hasTo fetch false clean n st0).1.seen g = true) := by
  cases hasTo with
  | false =>
    constructor
    · intro g s0 s1 h0 h1
      simp only [Feed.run] at h1
      simp at h1
      rw [h0] at h1
      cases h1
      rfl
    · intro _ g hg
      simpa [Feed.run] using hg
  | true =>
    cases fetch with
    | error fe =>
      have hseen : (Feed.run sha1 cfg true (Except.error fe) false clean n st0).1.seen =
          st0.seen := by
        cases clean <;> simp [Feed.run]
      rw [hseen]
      constructor
      · intro g s0 s1 h0 h1
        rw [h0] at h1
        cases h1
        rfl
      · intro _ g hg
        exact hg
    | ok parsed =>
      cases hchk : check_for_errors parsed with
      | some err =>
        have hseen : (Feed.run sha1 cfg true (Except.ok parsed) false clean n st0).1.seen =
            (if clean ∧ 0 < parsed.entries.length then markAllOld st0.seen
             else st0.seen) := by
          by_cases hcl : clean ∧ 0 < parsed.entries.length
          · have hclean : clean = true := by
              rcases hcl with ⟨h, _⟩
              cases clean
              · cases h
              · rfl
            simp [Feed.run, hchk, hcl, hclean]
          · by_cases hclean : clean = true
            · have hlen : ¬ 0 < parsed.entries.length := fun h => hcl ⟨hclean, h⟩
              simp [Feed.run, hchk, hclean, hlen]
            · have hcf : clean = false := by cases clean <;> simp_all
              have hlen2 : (if clean ∧ 0 < parsed.entries.length then markAllOld st0.seen
                  else st0.seen) = st0.seen := by
                simp [hcf]
              rw [hlen2]
              simp [Feed.run, hchk, hcf]
        rw [hseen]
        by_cases hcl : clean ∧ 0 < parsed.entries.length
        · rw [if_pos hcl]
          constructor
          · intro g s0 s1 h0 h1
            rw [lookupSeen_markAllOld, h0] at h1
            cases h1
            rfl
          · intro hcf
            rw [hcf] at hcl
            simp at hcl
        · rw [if_neg hcl]
          constructor
          · intro g s0 s1 h0 h1
            rw [h0] at h1
            cases h1
            rfl
          · intro _ g hg
            exact hg
      | none =>
        rw [run_seen_shape sha1 cfg hdig parsed hchk false clean n st0]
        by_cases hcl : clean ∧ 0 < parsed.entries.length
        · rw [if_pos hcl]
          have hmark1 : ∀ g s0 s, lookupSeen st0.seen g = some s0 →
              lookupSeen (markAllOld st0.seen) g = some s →
              s.message_id = s0.message_id := by
            intro g s0 s h0 h1
            rw [lookupSeen_markAllOld, h0] at h1
            cases h1
            rfl
          have hmark2 : ∀ g, containsSeen st0.seen g = true →
              containsSeen (markAllOld st0.seen) g = true := by
            intro g hg
            simpa [containsSeen, lookupSeen_markAllOld] using hg
          have hmidloop := processLoopPlain_message_id sha1 cfg
            parsed.entries.reverse (markAllOld st0.seen) st0.seen n hmark1 hmark2
          have hndloop := processLoopPlain_nodup sha1 cfg false
            parsed.entries.reverse (markAllOld st0.seen) n
            (by rw [keys_markAllOld]; exact hnd)
          constructor
          · intro g s0 s1 h0 h1
            obtain ⟨smid, hlm, hcases⟩ := pruneOld_lookup _ hndloop g s1 h1
            have := hmidloop g s0 smid h0 hlm
            rcases hcases with rfl | rfl
            · exact this
            · simpa using this
          · intro hcf
            rw [hcf] at hcl
            simp at hcl
        · rw [if_neg hcl]
          constructor
          · intro g s0 s1 h0 h1
            exact processLoopPlain_message_id sha1 cfg parsed.entries.reverse
              st0.seen st0.seen n (fun g' s0' s' h0' h1' => by
                rw [h0'] at h1'
                cases h1'
                rfl)
              (fun _ hg => hg) g s0 s1 h0 h1
          · intro _ g hg
            exact processLoopPlain_contains sha1 cfg false parsed.entries.reverse
              st0.seen n g hg

/-- Witness for `dry_run_message_id_frame`: a dry-run over a repeat
entry leaves the stored `message_id` exactly as it was. -/
theorem dry_run_message_id_frame_witness :
    lookupSeen
      (Feed.run (fun s => s) { trust_guid := true } true
        (Except.ok { entries := [{ id := some "G", contents := [⟨"text/plain", "h"⟩] }] })
        false false 0
        { seen := [("G", { hash := some "h", message_id := some "M" })] }).1.seen "G" =
      some { hash := some "h", message_id := some "M" } ∧
    SeenState.message_id { hash := some "h", message_id := some "M" } = some "M" := by
  refine ⟨by decide, ?_⟩
  have h := dry_run_message_id_frame (fun s => s) { trust_guid := true } rfl true
    (Except.ok { entries := [{ id := some "G", contents := [⟨"text/plain", "h"⟩] }] })
    false 0 { seen := [("G", { hash := some "h", message_id := some "M" })] } (by decide)
  have h2 := h.1 "G" { hash := some "h", message_id := some "M" }
    { hash := some "h", message_id := some "M" } (by decide) (by decide)
  exact h2.trans (by rfl)

theorem mem_setSeen {m : SeenMap} {g : String} {v : SeenState}
    {p : String × SeenState} (h : p ∈ setSeen m g v) : p ∈ m ∨ p = (g, v) := by
  induction m with
  | nil => simpa [setSeen] using h
  | cons q rest ih =>
    obtain ⟨k, w⟩ := q
    by_cases hk : k = g
    · simp only [setSeen, hk, if_true, ite_true] at h
      rcases List.mem_cons.mp h with rfl | hmem
      · exact Or.inr rfl
      · exact Or.inl (List.mem_cons_of_mem _ hmem)
    · simp only [setSeen, hk, if_false, ite_false] at h
      rcases List.mem_cons.mp h with rfl | hmem
      · exact Or.inl (List.mem_cons_self _ _)
      · rcases ih hmem with hm | hv
        · exact Or.inl (List.mem_cons_of_mem _ hm)
        · exact Or.inr hv

theorem commitPairs_mem {pairs : List (String × SeenState)} :
    ∀ {m : SeenMap} {p : String × SeenState}, p ∈ commitPairs m pairs →
      p ∈ m ∨ p ∈ pairs := by
  induction pairs with
  | nil => intro m p h; exact Or.inl h
  | cons q rest ih =>
    intro m p h
    obtain ⟨g, st⟩ := q
    simp only [commitPairs] at h
    rcases ih h with hm | hr
    · rcases mem_setSeen hm with hm' | rfl
      · exact Or.inl hm'
      · exact Or.inr (List.mem_cons_self _ _)
    · exact Or.inr (List.mem_cons_of_mem _ hr)

/-- The message `process_entry` builds carries `In-Reply-To` only from a
previously stored `message_id`. -/
theorem process_entry_message_inReplyTo (sha1 : String → String) (cfg : FeedConfig)
    (seen : SeenMap) (e : Entry) (fid : String) (guid : String)
    (state : SeenState) (message : EmailMessage)
    (h : (process_entry sha1 cfg seen e fid).2 = some (guid, state, message)) :
    message.inReplyTo = none ∨
    ∃ s0, lookupSeen seen (get_uid_for_entry sha1 cfg e) = some s0 ∧
      message.inReplyTo = s0.message_id := by
  simp only [process_entry] at h
  rcases hl : lookupSeen seen (get_uid_for_entry sha1 cfg e) with _ | s0 <;> rw [hl] at h
  · simp at h
    exact Or.inl (by rw [← h.2.2])
  · simp only [apply_ite Prod.snd] at h
    split_ifs at h <;> simp at h
    exact Or.inr ⟨s0, rfl, by rw [← h.2.2]⟩

/-- The digest collection loop introduces no `message_id` and no
`In-Reply-To` when the starting map holds none. -/
theorem processLoopCollect_no_message_id (sha1 : String → String) (cfg : FeedConfig) :
    ∀ (es : List Entry) (seen : SeenMap) (n : Nat),
      (∀ p ∈ seen, (p : String × SeenState).2.message_id = none) →
      (∀ p ∈ (processLoopCollect sha1 cfg es seen n).1,
        (p : String × SeenState).2.message_id = none) ∧
      (∀ q ∈ (processLoopCollect sha1 cfg es seen n).2.1,
        (q : String × SeenState).2.message_id = none) ∧
      (∀ msg ∈ (processLoopCollect sha1 cfg es seen n).2.2.1,
        (msg : EmailMessage).inReplyTo = none) := by
  intro es
  induction es with
  | nil =>
    intro seen n h
    refine ⟨h, ?_, ?_⟩ <;> (intro x hx; simp [processLoopCollect] at hx)
  | cons e rest ih =>
    intro seen n h
    have hcase := process_entry_seen_cases sha1 cfg seen e (mkMessageId n)
    simp only [processLoopCollect]
    rcases hpe : process_entry sha1 cfg seen e (mkMessageId n) with ⟨seen1, res⟩
    rw [hpe] at hcase
    have h1 : ∀ p ∈ seen1, (p : String × SeenState).2.message_id = none := by
      rcases hcase with rfl | ⟨s0, hl0, rfl⟩
      · exact h
      · intro p hp
        rcases mem_setSeen hp with hm | rfl
        · exact h p hm
        · simpa using h _ (lookupSeen_mem hl0)
    cases res with
    | none => exact ih seen1 n h1
    | some t =>
      obtain ⟨guid, state, message⟩ := t
      have hstate : state.message_id = none := by
        rcases process_entry_state_message_id sha1 cfg seen e (mkMessageId n)
          guid state message (by rw [hpe]) with ⟨_, hs⟩ | ⟨s0, hl0, hs⟩
        · exact hs
        · rw [hs]
          exact h _ (lookupSeen_mem hl0)
      have hmsg : message.inReplyTo = none := by
        rcases process_entry_message_inReplyTo sha1 cfg seen e (mkMessageId n)
          guid state message (by rw [hpe]) with hs | ⟨s0, hl0, hs⟩
        · exact hs
        · rw [hs]
          exact h _ (lookupSeen_mem hl0)
      obtain ⟨ihm, ihp, ihmsg⟩ := ih seen1 (n + 1) h1
      refine ⟨ihm, ?_, ?_⟩
      · intro q hq
        rcases List.mem_cons.mp hq with rfl | hq'
        · exact hstate
        · exact ihp q hq'
      · intro msg' hmsg'
        rcases List.mem_cons.mp hmsg' with rfl | hmsg''
        · exact hmsg
        · exact ihmsg msg' hmsg''

/-- Marking guids old touches no `message_id`. -/
theorem markAllOld_no_message_id (m : SeenMap)
    (h : ∀ p ∈ m, (p : String × SeenState).2.message_id = none) :
    ∀ p ∈ markAllOld m, (p : String × SeenState).2.message_id = none := by
  intro p hp
  simp only [markAllOld, List.mem_map] at hp
  obtain ⟨q, hq, rfl⟩ := hp
  simpa using h q hq

/-- Pruning touches no `message_id`. -/
theorem pruneOld_no_message_id (m : SeenMap)
    (h : ∀ p ∈ m, (p : String × SeenState).2.message_id = none) :
    ∀ p ∈ pruneOld m, (p : String × SeenState).2.message_id = none := by
  intro p hp
  have hp' : p ∈ pruneAux 3 m.reverse := by
    simp only [pruneOld] at hp
    exact List.mem_reverse.mp hp
  obtain ⟨q, hq, _, hv⟩ := pruneAux_mem 3 m.reverse p hp'
  have hqn := h q (List.mem_reverse.mp hq)
  rcases hv with hv | hv <;> rw [hv] <;> simpa using hqn

/-- The components of a successful digest `Feed.run`, spelled out. -/
theorem run_digest_components (sha1 : String → String) (cfg : FeedConfig)
    (hdig : cfg.digest = true) (parsed : Parsed)
    (hchk : check_for_errors parsed = none) (send clean : Bool) (n : Nat)
    (st : FeedState) (seenStart : SeenMap)
    (hstart_eq : seenStart =
      if clean ∧ 0 < parsed.entries.length then markAllOld st.seen else st.seen) :
    ∃ L, L = processLoopCollect sha1 cfg parsed.entries.reverse seenStart (n + 1) ∧
      (Feed.run sha1 cfg true (Except.ok parsed) send clean n st).1.seen =
        (if clean ∧ 0 < parsed.entries.length then
          pruneOld (if L.2.1.isEmpty then L.1 else commitPairs L.1 L.2.1)
        else (if L.2.1.isEmpty then L.1 else commitPairs L.1 L.2.1)) ∧
      (Feed.run sha1 cfg true (Except.ok parsed) send clean n st).2.1 =
        (if L.2.1.isEmpty then []
        else if send then
          (match L.2.2.1.getLast? with
          | some lastMsg =>
            [Outbound.digestMsg
              { messageId := mkMessageId n, parts := L.2.2.1,
                date := some lastMsg.date }]
          | none => [])
        else []) := by
  refine ⟨_, rfl, ?_, ?_⟩ <;>
    (by_cases hcl : clean ∧ 0 < parsed.entries.length
     · have hclean : clean = true := by
         rcases hcl with ⟨h, _⟩
         cases clean
         · cases h
         · rfl
       subst hstart_eq
       simp [Feed.run, hchk, hdig, runTail, hcl, hclean]
     · subst hstart_eq
       by_cases hclean : clean = true
       · have hlen : ¬ 0 < parsed.entries.length := fun h => hcl ⟨hclean, h⟩
         simp [Feed.run, hchk, hdig, runTail, hclean, hlen, hcl]
       · have hcf : clean = false := by cases clean <;> simp_all
         simp [Feed.run, hchk, hdig, runTail, hcf, hcl])

/-- C10: a digest feed never commits a `message_id`, and its digest
sub-messages never carry `In-Reply-To`.  The hypothesis — no stored
state holds a `message_id` — is the invariant itself: it holds for a
fresh feed and, by this theorem, is preserved by every digest run, so
over any history of digest runs no committed state ever contains a
`message_id` key and reply-chain threading never occurs; and only
digest containers (never reply-threaded singles) are handed to
delivery. -/
theorem digest_never_records_message_id (sha1 : String → String) (cfg : FeedConfig)
    (hdig : cfg.digest = true) (hasTo : Bool) (fetch : FetchResult)
    (send clean : Bool) (n : Nat) (st0 : FeedState)
    (h0 : ∀ p ∈ st0.seen, (p : String × SeenState).2.message_id = none) :
    (∀ p ∈ (Feed.run sha1 cfg hasTo fetch send clean n st0).1.seen,
      (p : String × SeenState).2.message_id = none) ∧
    (∀ o ∈ (Feed.run sha1 cfg hasTo fetch send clean n st0).2.1,
      ∃ d, o = Outbound.digestMsg d ∧
        ∀ msg ∈ d.parts, (msg : EmailMessage).inReplyTo = none) := by
  cases hasTo with
  | false =>
    refine ⟨?_, ?_⟩
    · intro p hp
      exact h0 p (by simpa [Feed.run] using hp)
    · intro o ho
      simp [Feed.run] at ho
  | true =>
    cases fetch with
    | error fe =>
      refine ⟨?_, ?_⟩
      · intro p hp
        refine h0 p ?_
        cases clean <;> simpa [Feed.run] using hp
      · intro o ho
        cases clean <;> simp [Feed.run] at ho
    | ok parsed =>
      cases hchk : check_for_errors parsed with
      | some err =>
        refine ⟨?_, ?_⟩
        · intro p hp
          by_cases hcl : clean ∧ 0 < parsed.entries.length
          · have hclean : clean = true := by
              rcases hcl with ⟨h, _⟩
              cases clean
              · cases h
              · rfl
            rw [show (Feed.run sha1 cfg true (Except.ok parsed) send clean n st0).1.seen =
                markAllOld st0.seen from by simp [Feed.run, hchk, hcl, hclean]] at hp
            exact markAllOld_no_message_id st0.seen h0 p hp
          · have hseen : (Feed.run sha1 cfg true (Except.ok parsed) send clean n st0).1.seen =
                st0.seen := by
              by_cases hclean : clean = true
              · have hlen : ¬ 0 < parsed.entries.length := fun h => hcl ⟨hclean, h⟩
                simp [Feed.run, hchk, hclean, hlen]
              · have hcf : clean = false := by cases clean <;> simp_all
                simp [Feed.run, hchk, hcf]
            rw [hseen] at hp
            exact h0 p hp
        · intro o ho
          have : (Feed.run sha1 cfg true (Except.ok parsed) send clean n st0).2.1 = [] := by
            cases clean <;> simp [Feed.run, hchk]
          rw [this] at ho
          simp at ho
      | none =>
        have hstart : ∀ p ∈ (if clean ∧ 0 < parsed.entries.length
            then markAllOld st0.seen else st0.seen),
            (p : String × SeenState).2.message_id = none := by
          by_cases hcl : clean ∧ 0 < parsed.entries.length
          · rw [if_pos hcl]
            exact markAllOld_no_message_id st0.seen h0
          · rw [if_neg hcl]
            exact h0
        obtain ⟨L, hLdef, hseen_eq, houts_eq⟩ :=
          run_digest_components sha1 cfg hdig parsed hchk send clean n st0 _ rfl
        obtain ⟨hseenF, hpairs, hparts⟩ := processLoopCollect_no_message_id sha1 cfg
          parsed.entries.reverse _ (n + 1) hstart
        rw [← hLdef] at hseenF hpairs hparts
        have hmid : ∀ q ∈ (if L.2.1.isEmpty then L.1 else commitPairs L.1 L.2.1),
            (q : String × SeenState).2.message_id = none := by
          intro q hq
          by_cases hpe : L.2.1.isEmpty
          · rw [if_pos hpe] at hq
            exact hseenF q hq
          · rw [if_neg hpe] at hq
            rcases commitPairs_mem hq with hm | hpr
            · exact hseenF q hm
            · exact hpairs q hpr
        refine ⟨?_, ?_⟩
        · intro p hp
          rw [hseen_eq] at hp
          by_cases hcl : clean ∧ 0 < parsed.entries.length
          · rw [if_pos hcl] at hp
            exact pruneOld_no_message_id _ hmid p hp
          · rw [if_neg hcl] at hp
            exact hmid p hp
        · intro o ho
          rw [houts_eq] at ho
          by_cases hpe : L.2.1.isEmpty
          · rw [if_pos hpe] at ho
            simp at ho
          · rw [if_neg hpe] at ho
            by_cases hs : send = true
            · rw [if_pos hs] at ho
              cases hgl : L.2.2.1.getLast? with
              | none =>
                rw [hgl] at ho
                simp at ho
              | some lastMsg =>
                rw [hgl] at ho
                rcases List.mem_cons.mp ho with rfl | hcontra
                · exact ⟨_, rfl, fun msg hmsg => hparts msg hmsg⟩
                · simp at hcontra
            · rw [if_neg hs] at ho
              simp at ho

/-- Witness for `digest_never_records_message_id`: one new entry in a
digest feed; the committed state has no `message_id` and the digest's
sub-message no `In-Reply-To`. -/
theorem digest_never_records_message_id_witness :
    (("a", ({ hash := some "A" } : SeenState))).2.message_id = none ∧
    ({ messageId := mkMessageId 1, inReplyTo := none, date := "dA" } : EmailMessage).inReplyTo = none := by
  have h := digest_never_records_message_id (fun s => s)
    { trust_guid := true, digest := true, reply_changes := true } rfl true
    (Except.ok { entries :=
      [{ id := some "a", contents := [⟨"text/plain", "A"⟩], date := "dA" }] })
    true false 0 { seen := [] } (by intro p hp; simp at hp)
  constructor
  · exact h.1 ("a", { hash := some "A" }) (by decide)
  · obtain ⟨d, hd, hmsgs⟩ := h.2
      (Outbound.digestMsg
        { messageId := mkMessageId 0,
          parts := [{ messageId := mkMessageId 1, inReplyTo := none, date := "dA" }],
          date := some "dA" }) (by decide)
    have hdd : d =
        { messageId := mkMessageId 0,
          parts := [{ messageId := mkMessageId 1, inReplyTo := none, date := "dA" }],
          date := some "dA" } := (Outbound.digestMsg.inj hd).symm
    exact hmsgs _ (by rw [hdd]; exact List.mem_cons_self _ _)

/-- Committing pairs whose keys all differ from `g` leaves `g`'s slot
untouched. -/
theorem commitPairs_lookup_ne (g : String) :
    ∀ (pairs : List (String × SeenState)) (m : SeenMap),
      (∀ q ∈ pairs, (q : String × SeenState).1 ≠ g) →
      lookupSeen (commitPairs m pairs) g = lookupSeen m g := by
  intro pairs
  induction pairs with
  | nil => intro m _; rfl
  | cons q rest ih =>
    intro m hq
    obtain ⟨g0, st0⟩ := q
    have hg0 : g0 ≠ g := hq (g0, st0) (List.mem_cons_self _ _)
    simp only [commitPairs]
    rw [ih _ (fun q' hq' => hq q' (List.mem_cons_of_mem _ hq')),
      lookupSeen_setSeen_ne _ _ _ _ (fun hh => hg0 hh.symm)]

/-- Committing duplicate-free pairs makes each pair's state the stored
state of its guid. -/
theorem commitPairs_lookup_of_mem (g : String) (st : SeenState) :
    ∀ (pairs : List (String × SeenState)) (m : SeenMap),
      (pairs.map Prod.fst).Nodup → (g, st) ∈ pairs →
      lookupSeen (commitPairs m pairs) g = some st := by
  intro pairs
  induction pairs with
  | nil => intro m _ h; simp at h
  | cons q rest ih =>
    intro m hnd hmem
    obtain ⟨g0, st0⟩ := q
    rcases List.mem_cons.mp hmem with heq | hmem'
    · cases heq
      simp only [commitPairs]
      rw [commitPairs_lookup_ne g rest _ ?_ , lookupSeen_setSeen_self]
      intro q hq hcontra
      have hqm : q.1 ∈ rest.map Prod.fst := List.mem_map_of_mem Prod.fst hq
      rw [hcontra] at hqm
      exact (List.nodup_cons.mp hnd).1 hqm
    · simp only [commitPairs]
      exact ih _ (List.nodup_cons.mp hnd).2 hmem'

/-- Over an all-new payload, the digest collection loop touches nothing
and collects one pair and one dated, reply-free sub-message per entry,
in processing order. -/
theorem processLoopCollect_all_new (sha1 : String → String) (cfg : FeedConfig) :
    ∀ (es : List Entry) (seen : SeenMap) (n : Nat),
      (∀ e ∈ es, lookupSeen seen (get_uid_for_entry sha1 cfg e) = none) →
      (processLoopCollect sha1 cfg es seen n).1 = seen ∧
      (processLoopCollect sha1 cfg es seen n).2.1 =
        es.map (fun e => (get_uid_for_entry sha1 cfg e,
          ({ hash := some (get_entry_hash sha1 cfg.html_mail e) } : SeenState))) ∧
      (processLoopCollect sha1 cfg es seen n).2.2.1.map EmailMessage.date =
        es.map Entry.date ∧
      (processLoopCollect sha1 cfg es seen n).2.2.1.map EmailMessage.inReplyTo =
        es.map (fun _ => none) := by
  intro es
  induction es with
  | nil => intro seen n _; exact ⟨rfl, rfl, rfl, rfl⟩
  | cons e rest ih =>
    intro seen n h
    have hstep : process_entry sha1 cfg seen e (mkMessageId n) =
        (seen, some (get_uid_for_entry sha1 cfg e,
          { hash := some (get_entry_hash sha1 cfg.html_mail e) },
          { messageId := mkMessageId n, inReplyTo := none, date := e.date })) := by
      simp only [process_entry]
      rw [h e (List.mem_cons_self e rest)]
    obtain ⟨ih1, ih2, ih3, ih4⟩ :=
      ih seen (n + 1) (fun e' he' => h e' (List.mem_cons_of_mem _ he'))
    simp only [processLoopCollect]
    rw [hstep]
    exact ⟨ih1, by simp [ih2], by simp [ih3], by simp [ih4]⟩

/-- C6: digest batching.  A digest feed whose fetched payload consists of
N > 0 new entries with pairwise-distinct guids sends, on
`Feed.run(send=True)`, exactly one outbound message: a container with
exactly N attached sub-parts, one per entry in oldest-to-newest
processing order (the payload reversed), whose `Date` equals the `Date`
of the last (newest) attached sub-part — the first payload entry's date
— and afterwards every entry's guid is committed to `seen` with its
hash. -/
theorem digest_batching (sha1 : String → String) (cfg : FeedConfig)
    (hdig : cfg.digest = true) (parsed : Parsed)
    (hchk : check_for_errors parsed = none)
    (e0 : Entry) (es : List Entry) (hent : parsed.entries = e0 :: es)
    (st0 : FeedState) (n : Nat)
    (hnew : ∀ e ∈ parsed.entries,
      lookupSeen st0.seen (get_uid_for_entry sha1 cfg e) = none)
    (hnd : (parsed.entries.map (get_uid_for_entry sha1 cfg)).Nodup) :
    ∃ d, (Feed.run sha1 cfg true (Except.ok parsed) true false n st0).2.1 =
        [Outbound.digestMsg d] ∧
      d.parts.length = parsed.entries.length ∧
      d.parts.map EmailMessage.date = (parsed.entries.map Entry.date).reverse ∧
      d.date = some e0.date ∧
      ∀ e ∈ parsed.entries,
        lookupSeen (Feed.run sha1 cfg true (Except.ok parsed) true false n st0).1.seen
          (get_uid_for_entry sha1 cfg e) =
          some { hash := some (get_entry_hash sha1 cfg.html_mail e) } := by
  obtain ⟨L, hLdef, hseen_eq, houts_eq⟩ :=
    run_digest_components sha1 cfg hdig parsed hchk true false n st0 st0.seen
      (by simp)
  obtain ⟨hL1, hL2, hL3, hL4⟩ := processLoopCollect_all_new sha1 cfg
    parsed.entries.reverse st0.seen (n + 1)
    (fun e he => hnew e (List.mem_reverse.mp he))
  rw [← hLdef] at hL1 hL2 hL3 hL4
  have hplen : L.2.2.1.length = parsed.entries.length := by
    have := congrArg List.length hL3
    simpa using this
  have hpne : L.2.1.isEmpty = false := by
    rw [hL2, hent]
    simp
  have hpartsne : L.2.2.1 ≠ [] := by
    intro hcontra
    rw [hcontra, hent] at hplen
    simp at hplen
  obtain ⟨lm, hgl⟩ : ∃ lm, L.2.2.1.getLast? = some lm := by
    cases hl : L.2.2.1.getLast? with
    | none => exact absurd (List.getLast?_eq_none_iff.mp hl) hpartsne
    | some lm => exact ⟨lm, rfl⟩
  have houts : (Feed.run sha1 cfg true (Except.ok parsed) true false n st0).2.1 =
      [Outbound.digestMsg
        { messageId := mkMessageId n, parts := L.2.2.1, date := some lm.date }] := by
    rw [houts_eq, hpne]
    simp only [Bool.false_eq_true, if_false, ite_false, if_true, ite_true, hgl]
  have hlmdate : lm.date = e0.date := by
    have h1 : (L.2.2.1.map EmailMessage.date).getLast? = some lm.date := by
      rw [List.getLast?_map, hgl]
      rfl
    rw [hL3] at h1
    have h2 : (parsed.entries.reverse.map Entry.date).getLast? = some e0.date := by
      rw [List.getLast?_map, List.getLast?_reverse, hent]
      rfl
    rw [h2] at h1
    exact (Option.some.inj h1).symm
  refine ⟨{ messageId := mkMessageId n, parts := L.2.2.1, date := some lm.date },
    houts, hplen, by rw [hL3, List.map_reverse], by rw [hlmdate], ?_⟩
  intro e he
  have hseen : (Feed.run sha1 cfg true (Except.ok parsed) true false n st0).1.seen =
      commitPairs L.1 L.2.1 := by
    rw [hseen_eq]
    simp [hpne]
  rw [hseen]
  refine commitPairs_lookup_of_mem _ _ L.2.1 L.1 ?_ ?_
  · rw [hL2]
    have : (parsed.entries.reverse.map (fun e => (get_uid_for_entry sha1 cfg e,
        ({ hash := some (get_entry_hash sha1 cfg.html_mail e) } : SeenState)))).map Prod.fst =
        parsed.entries.reverse.map (get_uid_for_entry sha1 cfg) := by
      simp
    rw [this, List.map_reverse]
    exact List.nodup_reverse.mpr hnd
  · rw [hL2]
    exact List.mem_map_of_mem _ (List.mem_reverse.mpr he)

/-- Witness for `digest_batching`: two new entries produce one digest
container and both guids are committed with their hashes. -/
theorem digest_batching_witness :
    (Feed.run (fun s => s) { trust_guid := true, digest := true } true
      (Except.ok { entries :=
        [{ id := some "b", contents := [⟨"text/plain", "B"⟩], date := "dB" },
         { id := some "a", contents := [⟨"text/plain", "A"⟩], date := "dA" }] })
      true false 0 { seen := [] }).2.1.length = 1 ∧
    lookupSeen
      (Feed.run (fun s => s) { trust_guid := true, digest := true } true
        (Except.ok { entries :=
          [{ id := some "b", contents := [⟨"text/plain", "B"⟩], date := "dB" },
           { id := some "a", contents := [⟨"text/plain", "A"⟩], date := "dA" }] })
        true false 0 { seen := [] }).1.seen "a" = some { hash := some "A" } ∧
    lookupSeen
      (Feed.run (fun s => s) { trust_guid := true, digest := true } true
        (Except.ok { entries :=
          [{ id := some "b", contents := [⟨"text/plain", "B"⟩], date := "dB" },
           { id := some "a", contents := [⟨"text/plain", "A"⟩], date := "dA" }] })
        true false 0 { seen := [] }).1.seen "b" = some { hash := some "B" } := by
  obtain ⟨d, hd1, hlen, hdates, hdate, hcommit⟩ :=
    digest_batching (fun s => s) { trust_guid := true, digest := true } rfl
      { entries :=
        [{ id := some "b", contents := [⟨"text/plain", "B"⟩], date := "dB" },
         { id := some "a", contents := [⟨"text/plain", "A"⟩], date := "dA" }] }
      (by decide)
      { id := some "b", contents := [⟨"text/plain", "B"⟩], date := "dB" }
      [{ id := some "a", contents := [⟨"text/plain", "A"⟩], date := "dA" }]
      rfl { seen := [] } 0 (fun e _ => rfl) (by decide)
  refine ⟨by rw [hd1]; rfl, ?_, ?_⟩
  · exact hcommit { id := some "a", contents := [⟨"text/plain", "A"⟩], date := "dA" }
      (by decide)
  · exact hcommit { id := some "b", contents := [⟨"text/plain", "B"⟩], date := "dB" }
      (by decide)

theorem containsSeen_eq_true_iff (m : SeenMap) (g : String) :
    containsSeen m g = true ↔ g ∈ m.map Prod.fst := by
  rcases hls : lookupSeen m g with _ | s
  · simp only [containsSeen, hls]
    constructor
    · intro h
      exact absurd h (by simp)
    · intro h
      exact absurd h ((lookupSeen_eq_none_iff m g).mp hls)
  · simp only [containsSeen, hls]
    constructor
    · intro _
      exact List.mem_map_of_mem Prod.fst (lookupSeen_mem hls)
    · intro _
      rfl

/-- Entries kept by the pruning pass never carry the old mark. -/
theorem pruneAux_old_false (l : SeenMap) :
    ∀ (c : Nat), ∀ p ∈ pruneAux c l, p.2.old = false := by
  induction l with
  | nil => intro c p hp; simp [pruneAux] at hp
  | cons q0 rest ih =>
    intro c p hp
    obtain ⟨g0, st0⟩ := q0
    cases hold : st0.old with
    | false =>
      rw [show pruneAux c ((g0, st0) :: rest) = (g0, st0) :: pruneAux c rest by
        simp [pruneAux, hold]] at hp
      rcases List.mem_cons.mp hp with rfl | hmem
      · exact hold
      · exact ih c p hmem
    | true =>
      cases c with
      | zero =>
        rw [show pruneAux 0 ((g0, st0) :: rest) = pruneAux 0 rest by
          simp [pruneAux, hold]] at hp
        exact ih 0 p hp
      | succ c' =>
        rw [show pruneAux (c' + 1) ((g0, st0) :: rest) =
            (g0, { st0 with old := false }) :: pruneAux c' rest by
          simp [pruneAux, hold]] at hp
        rcases List.mem_cons.mp hp with rfl | hmem
        · rfl
        · exact ih c' p hmem

/-- Length accounting of the pruning pass: the kept list is shorter than
the input by the number of marked entries beyond the counter. -/
theorem pruneAux_length (l : SeenMap) :
    ∀ c : Nat, (pruneAux c l).length + (l.filter (fun p => p.2.old)).length =
      l.length + min c (l.filter (fun p => p.2.old)).length := by
  induction l with
  | nil => intro c; simp [pruneAux]
  | cons q0 rest ih =>
    intro c
    obtain ⟨g0, st0⟩ := q0
    cases hold : st0.old with
    | false =>
      rw [show pruneAux c ((g0, st0) :: rest) = (g0, st0) :: pruneAux c rest by
        simp [pruneAux, hold]]
      rw [show ((g0, st0) :: rest).filter (fun p => p.2.old) =
          rest.filter (fun p => p.2.old) by simp [List.filter_cons, hold]]
      simp only [List.length_cons]
      have h := ih c
      omega
    | true =>
      rw [show ((g0, st0) :: rest).filter (fun p => p.2.old) =
          (g0, st0) :: rest.filter (fun p => p.2.old) by
        simp [List.filter_cons, hold]]
      cases c with
      | zero =>
        rw [show pruneAux 0 ((g0, st0) :: rest) = pruneAux 0 rest by
          simp [pruneAux, hold]]
        simp only [List.length_cons]
        have h := ih 0
        omega
      | succ c' =>
        rw [show pruneAux (c' + 1) ((g0, st0) :: rest) =
            (g0, { st0 with old := false }) :: pruneAux c' rest by
          simp [pruneAux, hold]]
        simp only [List.length_cons]
        have h := ih c'
        omega

/-- Which keys survive the pruning pass: an entry's key is kept iff the
entry is unmarked or its key is among the first `c` marked keys of the
walk (keys assumed distinct, as for a Python dict). -/
theorem pruneAux_keys_iff (g : String) :
    ∀ (l : SeenMap), (l.map Prod.fst).Nodup → ∀ c : Nat,
      (g ∈ (pruneAux c l).map Prod.fst ↔
        ∃ st, (g, st) ∈ l ∧
          (st.old = false ∨
            g ∈ ((l.filter (fun p => p.2.old)).map Prod.fst).take c)) := by
  intro l
  induction l with
  | nil => intro _ c; simp [pruneAux]
  | cons q0 rest ih =>
    intro hnd c
    obtain ⟨g0, st0⟩ := q0
    have hnd' : (rest.map Prod.fst).Nodup := (List.nodup_cons.mp hnd).2
    have hg0 : g0 ∉ rest.map Prod.fst := (List.nodup_cons.mp hnd).1
    by_cases hgg : g = g0
    · subst hgg
      have hmem_iff : ∀ st : SeenState, ((g, st) ∈ (g, st0) :: rest ↔ st = st0) := by
        intro st
        constructor
        · intro h
          rcases List.mem_cons.mp h with h | h
          · exact congrArg Prod.snd h
          · exact absurd (List.mem_map_of_mem Prod.fst h) hg0
        · intro h
          rw [h]
          exact List.mem_cons_self _ _
      cases hold : st0.old with
      | false =>
        constructor
        · intro _
          exact ⟨st0, List.mem_cons_self _ _, Or.inl hold⟩
        · intro _
          simp [pruneAux, hold]
      | true =>
        cases c with
        | zero =>
          constructor
          · intro hmem
            exfalso
            rw [show pruneAux 0 ((g, st0) :: rest) = pruneAux 0 rest by
              simp [pruneAux, hold]] at hmem
            obtain ⟨p, hp, hpe⟩ := List.mem_map.mp hmem
            obtain ⟨q, hq, hk, _⟩ := pruneAux_mem 0 rest p hp
            apply hg0
            rw [← hpe, ← hk]
            exact List.mem_map_of_mem Prod.fst hq
          · rintro ⟨st, hstm, hor⟩
            have hst : st = st0 := (hmem_iff st).mp hstm
            subst hst
            rcases hor with h | h
            · rw [hold] at h
              exact Bool.noConfusion h
            · simp at h
        | succ c' =>
          constructor
          · intro _
            refine ⟨st0, List.mem_cons_self _ _, Or.inr ?_⟩
            rw [show (((g, st0) :: rest).filter (fun p => p.2.old)).map Prod.fst =
                g :: (rest.filter (fun p => p.2.old)).map Prod.fst by
              simp [List.filter_cons, hold]]
            rw [List.take_succ_cons]
            exact List.mem_cons_self _ _
          · intro _
            rw [show pruneAux (c' + 1) ((g, st0) :: rest) =
                (g, { st0 with old := false }) :: pruneAux c' rest by
              simp [pruneAux, hold]]
            simp
    · have hmem_iff : ∀ st : SeenState, ((g, st) ∈ (g0, st0) :: rest ↔ (g, st) ∈ rest) := by
        intro st
        constructor
        · intro h
          rcases List.mem_cons.mp h with h | h
          · exfalso
            injection h with h1 _
            exact hgg h1
          · exact h
        · exact List.mem_cons_of_mem _
      cases hold : st0.old with
      | false =>
        rw [show pruneAux c ((g0, st0) :: rest) = (g0, st0) :: pruneAux c rest by
          simp [pruneAux, hold]]
        rw [show ((g0, st0) :: rest).filter (fun p => p.2.old) =
            rest.filter (fun p => p.2.old) by simp [List.filter_cons, hold]]
        constructor
        · intro hmem
          have hmem2 : g = g0 ∨ g ∈ (pruneAux c rest).map Prod.fst := by
            simpa using hmem
          rcases hmem2 with h | h
          · exact absurd h hgg
          · obtain ⟨st, hstm, hor⟩ := (ih hnd' c).mp h
            exact ⟨st, List.mem_cons_of_mem _ hstm, hor⟩
        · rintro ⟨st, hstm, hor⟩
          have hstm' : (g, st) ∈ rest := (hmem_iff st).mp hstm
          have h := (ih hnd' c).mpr ⟨st, hstm', hor⟩
          simp only [List.map_cons, List.mem_cons]
          exact Or.inr h
      | true =>
        cases c with
        | zero =>
          rw [show pruneAux 0 ((g0, st0) :: rest) = pruneAux 0 rest by
            simp [pruneAux, hold]]
          rw [ih hnd' 0]
          simp only [List.take_zero, List.not_mem_nil, or_false]
          constructor
          · rintro ⟨st, hstm, hor⟩
            exact ⟨st, List.mem_cons_of_mem _ hstm, hor⟩
          · rintro ⟨st, hstm, hor⟩
            exact ⟨st, (hmem_iff st).mp hstm, hor⟩
        | succ c' =>
          rw [show pruneAux (c' + 1) ((g0, st0) :: rest) =
              (g0, { st0 with old := false }) :: pruneAux c' rest by
            simp [pruneAux, hold]]
          rw [show (((g0, st0) :: rest).filter (fun p => p.2.old)).map Prod.fst =
              g0 :: (rest.filter (fun p => p.2.old)).map Prod.fst by
            simp [List.filter_cons, hold]]
          rw [List.take_succ_cons]
          constructor
          · intro hmem
            have hmem2 : g = g0 ∨ g ∈ (pruneAux c' rest).map Prod.fst := by
              simpa using hmem
            rcases hmem2 with h | h
            · exact absurd h hgg
            · obtain ⟨st, hstm, hor⟩ := (ih hnd' c').mp h
              refine ⟨st, List.mem_cons_of_mem _ hstm, ?_⟩
              rcases hor with h' | h'
              · exact Or.inl h'
              · exact Or.inr (List.mem_cons_of_mem _ h')
          · rintro ⟨st, hstm, hor⟩
            have hstm' : (g, st) ∈ rest := (hmem_iff st).mp hstm
            have hor' : st.old = false ∨
                g ∈ ((rest.filter (fun p => p.2.old)).map Prod.fst).take c' := by
              rcases hor with h | h
              · exact Or.inl h
              · rcases List.mem_cons.mp h with h' | h'
                · exact absurd h' hgg
                · exact Or.inr h'
            have h := (ih hnd' c').mpr ⟨st, hstm', hor'⟩
            simp only [List.map_cons, List.mem_cons]
            exact Or.inr h

/-- When the old marks of a map are described pointwise by `q` on the
keys, filtering the entries by mark filters the keys by `q`. -/
theorem map_fst_filter_old (q : String → Bool) :
    ∀ m : SeenMap, (∀ p ∈ m, p.2.old = q p.1) →
      (m.filter (fun p => p.2.old)).map Prod.fst = (m.map Prod.fst).filter q := by
  intro m
  induction m with
  | nil => intro _; rfl
  | cons p0 rest ih =>
    intro h
    obtain ⟨g0, s0⟩ := p0
    have h0 : s0.old = q g0 := h (g0, s0) (List.mem_cons_self _ _)
    have hr := ih (fun p hp => h p (List.mem_cons_of_mem _ hp))
    cases hq : q g0 with
    | true => simp [List.filter_cons, h0, hq, hr]
    | false => simp [List.filter_cons, h0, hq, hr]

/-- What the clean pruning pass (`pruneOld`) does to a map whose old
marks are described pointwise by `q` on the keys: no mark survives,
unmarked keys all survive, a marked key survives exactly when it is
among the 3 most-recently-inserted marked keys, and the length drops by
the number of marked keys beyond 3. -/
theorem pruneOld_characterization (M : SeenMap) (q : String → Bool)
    (hMnd : (M.map Prod.fst).Nodup)
    (hpt : ∀ p ∈ M, p.2.old = q p.1) :
    (∀ g s, lookupSeen (pruneOld M) g = some s → s.old = false) ∧
    (∀ g, g ∈ M.map Prod.fst → q g = false → containsSeen (pruneOld M) g = true) ∧
    (∀ g, g ∈ (M.map Prod.fst).filter q →
      (containsSeen (pruneOld M) g = true ↔
        g ∈ (((M.map Prod.fst).filter q).reverse.take 3))) ∧
    ((pruneOld M).length + ((M.map Prod.fst).filter q).length =
      M.length + min 3 ((M.map Prod.fst).filter q).length) := by
  have hrevnd : (M.reverse.map Prod.fst).Nodup := by
    rw [List.map_reverse]
    exact List.nodup_reverse.mpr hMnd
  have hptrev : ∀ p ∈ M.reverse, p.2.old = q p.1 :=
    fun p hp => hpt p (List.mem_reverse.mp hp)
  have hfil := map_fst_filter_old q M.reverse hptrev
  have hmk : ((M.reverse.filter (fun p => p.2.old)).map Prod.fst) =
      ((M.map Prod.fst).filter q).reverse := by
    rw [hfil, List.map_reverse, List.filter_reverse]
  refine ⟨?_, ?_, ?_, ?_⟩
  · intro g s hls
    have hmem : (g, s) ∈ pruneAux 3 M.reverse := by
      have h := lookupSeen_mem hls
      simp only [pruneOld] at h
      exact List.mem_reverse.mp h
    exact pruneAux_old_false M.reverse 3 (g, s) hmem
  · intro g hgk hq
    rcases hls : lookupSeen M g with _ | s
    · exact absurd hgk ((lookupSeen_eq_none_iff M g).mp hls)
    · have hold : s.old = false := by
        have h := hpt (g, s) (lookupSeen_mem hls)
        rw [h, hq]
      have hmem : g ∈ (pruneAux 3 M.reverse).map Prod.fst :=
        (pruneAux_keys_iff g M.reverse hrevnd 3).mpr
          ⟨s, List.mem_reverse.mpr (lookupSeen_mem hls), Or.inl hold⟩
      simp only [pruneOld]
      rw [containsSeen_eq_true_iff, List.map_reverse, List.mem_reverse]
      exact hmem
  · intro g hgO
    have hgk : g ∈ M.map Prod.fst := (List.mem_filter.mp hgO).1
    have hq : q g = true := (List.mem_filter.mp hgO).2
    rcases hls : lookupSeen M g with _ | s
    · exact absurd hgk ((lookupSeen_eq_none_iff M g).mp hls)
    · have hold : s.old = true := by
        have h := hpt (g, s) (lookupSeen_mem hls)
        rw [h, hq]
      simp only [pruneOld]
      rw [containsSeen_eq_true_iff, List.map_reverse, List.mem_reverse,
        pruneAux_keys_iff g M.reverse hrevnd 3]
      constructor
      · rintro ⟨st, hstm, hor⟩
        have hst : st = s := by
          have h := lookupSeen_of_mem_nodup hMnd (List.mem_reverse.mp hstm)
          exact Option.some.inj (h.symm.trans hls)
        rcases hor with h | h
        · rw [hst, hold] at h
          exact Bool.noConfusion h
        · rw [hmk] at h
          exact h
      · intro h
        refine ⟨s, List.mem_reverse.mpr (lookupSeen_mem hls), Or.inr ?_⟩
        rw [hmk]
        exact h
  · have hlen := pruneAux_length M.reverse 3
    have hml : (M.reverse.filter (fun p => p.2.old)).length =
        ((M.map Prod.fst).filter q).length := by
      have h := congrArg List.length hmk
      simpa using h
    rw [hml, List.length_reverse] at hlen
    have hpl : (pruneOld M).length = (pruneAux 3 M.reverse).length := by
      simp only [pruneOld]
      exact List.length_reverse _
    rw [hpl]
    exact hlen

/-- When every processed guid is already present, the processing loop
leaves the key list (and hence insertion order) untouched. -/
theorem processLoopPlain_keys (sha1 : String → String) (cfg : FeedConfig)
    (send : Bool) :
    ∀ (es : List Entry) (seen : SeenMap) (n : Nat),
      (∀ e ∈ es, containsSeen seen (get_uid_for_entry sha1 cfg e) = true) →
      (processLoopPlain sha1 cfg send es seen n).1.map Prod.fst =
        seen.map Prod.fst := by
  intro es
  induction es with
  | nil => intro seen n _; rfl
  | cons e rest ih =>
    intro seen n h
    have hcase := process_entry_seen_cases sha1 cfg seen e (mkMessageId n)
    simp only [processLoopPlain]
    rcases hpe : process_entry sha1 cfg seen e (mkMessageId n) with
      ⟨seen1, _ | ⟨guid, state, message⟩⟩
    · rw [hpe] at hcase
      have hkeys1 : seen1.map Prod.fst = seen.map Prod.fst := by
        rcases hcase with rfl | ⟨s0, hl0, rfl⟩
        · rfl
        · exact keys_setSeen_of_contains _ _ _ (by simp [containsSeen, hl0])
      have hcont1 : ∀ e' ∈ rest, containsSeen seen1 (get_uid_for_entry sha1 cfg e') = true := by
        intro e' he'
        rcases hcase with rfl | ⟨s0, hl0, rfl⟩
        · exact h e' (List.mem_cons_of_mem _ he')
        · exact containsSeen_setSeen_of _ _ _ _ (h e' (List.mem_cons_of_mem _ he'))
      rw [ih seen1 n hcont1]
      exact hkeys1
    · rw [hpe] at hcase
      have hkeys1 : seen1.map Prod.fst = seen.map Prod.fst := by
        rcases hcase with rfl | ⟨s0, hl0, rfl⟩
        · rfl
        · exact keys_setSeen_of_contains _ _ _ (by simp [containsSeen, hl0])
      have hcont1 : ∀ g', containsSeen seen g' = true → containsSeen seen1 g' = true := by
        intro g' hg'
        rcases hcase with rfl | ⟨s0, hl0, rfl⟩
        · exact hg'
        · exact containsSeen_setSeen_of _ _ _ _ hg'
      have hguid : guid = get_uid_for_entry sha1 cfg e :=
        process_entry_guid sha1 cfg seen e (mkMessageId n) guid state message (by rw [hpe])
      have hcg : containsSeen seen1 guid = true := by
        rw [hguid]
        exact hcont1 _ (h e (List.mem_cons_self e rest))
      have hrest' : ∀ e' ∈ rest, containsSeen
          (setSeen seen1 guid
            (if send then { state with message_id := some message.messageId } else state))
          (get_uid_for_entry sha1 cfg e') = true := by
        intro e' he'
        exact containsSeen_setSeen_of _ _ _ _ (hcont1 _ (h e' (List.mem_cons_of_mem _ he')))
      simp only
      rw [ih _ (n + 1) hrest', keys_setSeen_of_contains _ _ _ hcg]
      exact hkeys1

/-- C3: clean pruning bound.  For a successful non-digest `Feed.run` with
`--clean` on a non-empty payload whose guids are all already recorded
(keys duplicate-free; with `reply_changes`, payload guids pairwise
distinct): every guid in `seen` is first marked old and the payload
guids have the mark cleared during processing, so afterwards no `old`
mark survives, payload guids are never removed, a still-marked guid
(one recorded but absent from the payload) survives exactly when it is
among the 3 most-recently-inserted such guids, and when `k > 3` guids
were still marked, that kept prefix has length 3 and exactly `k - 3`
entries are removed from `seen`. -/
theorem clean_pruning_bound (sha1 : String → String) (cfg : FeedConfig)
    (hdig : cfg.digest = false) (parsed : Parsed)
    (hchk : check_for_errors parsed = none)
    (hne : 0 < parsed.entries.length)
    (hndG : cfg.reply_changes = true →
      (parsed.entries.map (get_uid_for_entry sha1 cfg)).Nodup)
    (send : Bool) (n : Nat) (st0 : FeedState)
    (hnd : (st0.seen.map Prod.fst).Nodup)
    (hsub : ∀ e ∈ parsed.entries,
      containsSeen st0.seen (get_uid_for_entry sha1 cfg e) = true) :
    (∀ g s, lookupSeen
        (Feed.run sha1 cfg true (Except.ok parsed) send true n st0).1.seen g =
          some s → s.old = false) ∧
    (∀ e ∈ parsed.entries, containsSeen
        (Feed.run sha1 cfg true (Except.ok parsed) send true n st0).1.seen
        (get_uid_for_entry sha1 cfg e) = true) ∧
    (∀ g ∈ (st0.seen.map Prod.fst).filter
        (fun g => decide (¬ g ∈ parsed.entries.map (get_uid_for_entry sha1 cfg))),
      (containsSeen
          (Feed.run sha1 cfg true (Except.ok parsed) send true n st0).1.seen g =
            true ↔
        g ∈ (((st0.seen.map Prod.fst).filter
          (fun g => decide (¬ g ∈ parsed.entries.map
            (get_uid_for_entry sha1 cfg)))).reverse.take 3))) ∧
    (3 < ((st0.seen.map Prod.fst).filter
        (fun g => decide (¬ g ∈ parsed.entries.map
          (get_uid_for_entry sha1 cfg)))).length →
      ((((st0.seen.map Prod.fst).filter
          (fun g => decide (¬ g ∈ parsed.entries.map
            (get_uid_for_entry sha1 cfg)))).reverse.take 3).length = 3 ∧
      (Feed.run sha1 cfg true (Except.ok parsed) send true n st0).1.seen.length +
        (((st0.seen.map Prod.fst).filter
          (fun g => decide (¬ g ∈ parsed.entries.map
            (get_uid_for_entry sha1 cfg)))).length - 3) = st0.seen.length)) := by
  have hc : (true = true) ∧ 0 < parsed.entries.length := ⟨rfl, hne⟩
  have hshape := run_seen_shape sha1 cfg hdig parsed hchk send true n st0
  rw [if_pos hc] at hshape
  have hcontM : ∀ e ∈ parsed.entries.reverse,
      containsSeen (markAllOld st0.seen) (get_uid_for_entry sha1 cfg e) = true := by
    intro e he
    have h1 := hsub e (List.mem_reverse.mp he)
    simp only [containsSeen, lookupSeen_markAllOld] at h1 ⊢
    simpa using h1
  have hMkeys : ((processLoopPlain sha1 cfg send parsed.entries.reverse
      (markAllOld st0.seen) n).1).map Prod.fst = st0.seen.map Prod.fst := by
    rw [processLoopPlain_keys sha1 cfg send parsed.entries.reverse
      (markAllOld st0.seen) n hcontM]
    exact keys_markAllOld st0.seen
  have hMnd : (((processLoopPlain sha1 cfg send parsed.entries.reverse
      (markAllOld st0.seen) n).1).map Prod.fst).Nodup := by
    rw [hMkeys]
    exact hnd
  have hndrev : cfg.reply_changes = true →
      (parsed.entries.reverse.map (get_uid_for_entry sha1 cfg)).Nodup := by
    intro hrc
    rw [List.map_reverse]
    exact List.nodup_reverse.mpr (hndG hrc)
  have hpost := processLoopPlain_post sha1 cfg send parsed.entries.reverse
    (markAllOld st0.seen) n hndrev
  have hpt : ∀ p ∈ (processLoopPlain sha1 cfg send parsed.entries.reverse
      (markAllOld st0.seen) n).1,
      p.2.old = decide (¬ p.1 ∈ parsed.entries.map (get_uid_for_entry sha1 cfg)) := by
    intro p hp
    have hlp := lookupSeen_of_mem_nodup hMnd hp
    by_cases hpg : p.1 ∈ parsed.entries.map (get_uid_for_entry sha1 cfg)
    · obtain ⟨e, he, hge⟩ := List.mem_map.mp hpg
      obtain ⟨s, hls, hold, _⟩ := hpost e (List.mem_reverse.mpr he)
      rw [hge] at hls
      have hps : p.2 = s := Option.some.inj (hlp.symm.trans hls)
      rw [hps, hold]
      simp [hpg]
    · have hfr := processLoopPlain_frame sha1 cfg send p.1 parsed.entries.reverse
        (markAllOld st0.seen) n (by
          intro e he hge
          exact hpg (hge ▸ List.mem_map_of_mem _ (List.mem_reverse.mp he)))
      rw [hfr, lookupSeen_markAllOld] at hlp
      rcases hls0 : lookupSeen st0.seen p.1 with _ | s0
      · rw [hls0] at hlp
        simp at hlp
      · rw [hls0] at hlp
        have h := Option.some.inj (by simpa using hlp)
        rw [← h]
        simp [hpg]
  obtain ⟨h1, h2, h3, h4⟩ := pruneOld_characterization
    (processLoopPlain sha1 cfg send parsed.entries.reverse (markAllOld st0.seen) n).1
    (fun g => decide (¬ g ∈ parsed.entries.map (get_uid_for_entry sha1 cfg)))
    hMnd hpt
  have hMlen : ((processLoopPlain sha1 cfg send parsed.entries.reverse
      (markAllOld st0.seen) n).1).length = st0.seen.length := by
    have h := congrArg List.length hMkeys
    simpa using h
  rw [hMkeys] at h2 h3 h4
  rw [hMlen] at h4
  refine ⟨?_, ?_, ?_, ?_⟩
  · intro g s hls
    rw [hshape] at hls
    exact h1 g s hls
  · intro e he
    have hgk : get_uid_for_entry sha1 cfg e ∈ st0.seen.map Prod.fst :=
      (containsSeen_eq_true_iff _ _).mp (hsub e he)
    have hgG : get_uid_for_entry sha1 cfg e ∈
        parsed.entries.map (get_uid_for_entry sha1 cfg) :=
      List.mem_map_of_mem _ he
    have hq : decide (¬ get_uid_for_entry sha1 cfg e ∈
        parsed.entries.map (get_uid_for_entry sha1 cfg)) = false := by
      simp [hgG]
    rw [hshape]
    exact h2 _ hgk hq
  · intro g hgO
    rw [hshape]
    exact h3 g hgO
  · intro hk
    constructor
    · rw [List.length_take, List.length_reverse]
      omega
    · rw [hshape]
      omega

/-- Witness for `clean_pruning_bound`: a clean run over one payload entry
`"p"` with five stale guids `"a" … "e"` keeps `"p"` and the three most
recent stale guids and drops the two oldest, shrinking `seen` from 6 to
4 entries. -/
theorem clean_pruning_bound_witness :
    containsSeen (Feed.run (fun s => s) { trust_guid := true } true
        (Except.ok { entries :=
          [{ id := some "p", contents := [⟨"text/plain", "P"⟩] }] })
        true true 0
        { seen := [("a", { old := false }), ("b", { old := false }),
                   ("c", { old := false }), ("d", { old := false }),
                   ("e", { old := false }), ("p", { old := false })] }).1.seen
      (get_uid_for_entry (fun s => s) { trust_guid := true }
        { id := some "p", contents := [⟨"text/plain", "P"⟩] }) = true ∧
    containsSeen (Feed.run (fun s => s) { trust_guid := true } true
        (Except.ok { entries :=
          [{ id := some "p", contents := [⟨"text/plain", "P"⟩] }] })
        true true 0
        { seen := [("a", { old := false }), ("b", { old := false }),
                   ("c", { old := false }), ("d", { old := false }),
                   ("e", { old := false }), ("p", { old := false })] }).1.seen
      "e" = true ∧
    containsSeen (Feed.run (fun s => s) { trust_guid := true } true
        (Except.ok { entries :=
          [{ id := some "p", contents := [⟨"text/plain", "P"⟩] }] })
        true true 0
        { seen := [("a", { old := false }), ("b", { old := false }),
                   ("c", { old := false }), ("d", { old := false }),
                   ("e", { old := false }), ("p", { old := false })] }).1.seen
      "a" = false ∧
    (Feed.run (fun s => s) { trust_guid := true } true
        (Except.ok { entries :=
          [{ id := some "p", contents := [⟨"text/plain", "P"⟩] }] })
        true true 0
        { seen := [("a", { old := false }), ("b", { old := false }),
                   ("c", { old := false }), ("d", { old := false }),
                   ("e", { old := false }), ("p", { old := false })] }).1.seen.length
      = 4 := by
  obtain ⟨h1, h2, h3, h4⟩ := clean_pruning_bound (fun s => s) { trust_guid := true }
    rfl { entries := [{ id := some "p", contents := [⟨"text/plain", "P"⟩] }] }
    (by decide) (by decide) (by decide) true 0
    { seen := [("a", { old := false }), ("b", { old := false }),
               ("c", { old := false }), ("d", { old := false }),
               ("e", { old := false }), ("p", { old := false })] }
    (by decide) (by decide)
  refine ⟨h2 _ (by decide), ?_, ?_, ?_⟩
  · exact (h3 "e" (by decide)).mpr (by decide)
  · have he := h3 "a" (by decide)
    have hnk : ¬ ("a" ∈ ((([("a", ({ old := false } : SeenState)),
        ("b", { old := false }), ("c", { old := false }), ("d", { old := false }),
        ("e", { old := false }),
        ("p", { old := false })].map Prod.fst).filter
        (fun g => decide (¬ g ∈
          [{ id := some "p", contents := [⟨"text/plain", "P"⟩] }].map
            (get_uid_for_entry (fun s => s)
              { trust_guid := true })))).reverse.take 3)) := by decide
    cases hca : containsSeen (Feed.run (fun s => s) { trust_guid := true } true
        (Except.ok { entries :=
          [{ id := some "p", contents := [⟨"text/plain", "P"⟩] }] })
        true true 0
        { seen := [("a", { old := false }), ("b", { old := false }),
                   ("c", { old := false }), ("d", { old := false }),
                   ("e", { old := false }), ("p", { old := false })] }).1.seen "a" with
    | false => rfl
    | true => exact absurd (he.mp hca) hnk
  · obtain ⟨_, hlen⟩ := h4 (by decide)
    have hO : ((((({ seen := [("a", { old := false }), ("b", { old := false }),
        ("c", { old := false }), ("d", { old := false }),
        ("e", { old := false }), ("p", { old := false })] } : FeedState)).seen.map
          Prod.fst).filter
        (fun g => decide (¬ g ∈
          (({ entries :=
            [{ id := some "p", contents := [⟨"text/plain", "P"⟩] }] } : Parsed)).entries.map
            (get_uid_for_entry (fun s => s)
              { trust_guid := true })))).length) = 5 := by decide
    have hst : (({ seen := [("a", { old := false }), ("b", { old := false }),
        ("c", { old := false }), ("d", { old := false }),
        ("e", { old := false }), ("p", { old := false })] } : FeedState)).seen.length
        = 6 := by decide
    omega

end Rss2Email
